import Mathlib

/-!
Verification development for the classroom-feedback grading service
(`src/main.py`, `src/models.py`).

The development shallowly embeds the grading pipeline:
* a JSON value type and an executable model of Python's `json.loads`
  (restricted to integer numerals; floats and the nonstandard
  `NaN/Infinity` extensions are not modelled, so texts containing them
  simply fail to parse in the model);
* Python string helpers used by the worker: `str.strip`, `str.replace`,
  `str.startswith` (ASCII whitespace is modelled);
* the worker's response post-processing (`main.py` lines 86-95):
  code-fence stripping, `json.loads`, list coercion, field defaults;
* the submission store, the FIFO queue, the `submit` endpoint and the
  worker iteration of `process_submission_queue` as a state-transition
  system;
* the "most recent submission per (student, problem)" views of
  `get_problems` and `get_status`.
-/

/-- Whitespace accepted by Python's `json` scanner between tokens:
space, tab, newline, carriage return. -/
def isJsonWs (c : Char) : Bool :=
  c = ' ' || c = '\t' || c = '\n' || c = '\r'

/-- ASCII whitespace stripped by Python's `str.strip()`.  (Python also
strips some further Unicode whitespace; only the ASCII set is modelled.) -/
def isPyWs (c : Char) : Bool :=
  c = ' ' || c = '\t' || c = '\n' || c = '\r' || c = '\x0b' || c = '\x0c'

/-- JSON values as produced by `json.loads`.  Objects keep their bindings
in source order; duplicate keys are resolved on lookup with the last
binding winning, matching Python dict construction. -/
inductive Json where
  | null : Json
  | bool (b : Bool) : Json
  | num (n : Int) : Json
  | str (s : List Char) : Json
  | arr (elems : List Json) : Json
  | obj (kvs : List (List Char × Json)) : Json

/-- Hex digits accepted by the `\u` escape. -/
def isHexC (c : Char) : Bool :=
  c.isDigit || ('a' ≤ c && c ≤ 'f') || ('A' ≤ c && c ≤ 'F')

/-- Body of a JSON string literal, after the opening quote.  Returns the
decoded characters and the remaining input after the closing quote.
Handles the escapes `\" \\ \/ \b \f \n \r \t \uXXXX`; rejects raw
control characters as Python's strict-mode scanner does.  Lone
surrogates from `\u` decode through `Char.ofNat`'s fallback. -/
def parseStrBody : Nat → List Char → Option (List Char × List Char)
  | 0, _ => none
  | _ + 1, [] => none
  | fuel + 1, c :: r =>
    if c = '"' then some ([], r)
    else if c = '\\' then
      match r with
      | [] => none
      | e :: r2 =>
        if e = 'u' then
          match r2 with
          | a :: b :: c2 :: d :: r3 =>
            if isHexC a && isHexC b && isHexC c2 && isHexC d then
              match parseStrBody fuel r3 with
              | some (s, rest) =>
                some (Char.ofNat
                  (4096 * hexVal a + 256 * hexVal b + 16 * hexVal c2 + hexVal d) :: s, rest)
              | none => none
            else none
          | _ => none
        else
          match escMap e with
          | some ec =>
            match parseStrBody fuel r2 with
            | some (s, rest) => some (ec :: s, rest)
            | none => none
          | none => none
    else if c.toNat < 32 then none
    else
      match parseStrBody fuel r with
      | some (s, rest) => some (c :: s, rest)
      | none => none
where
  /-- Numeric value of a hex digit. -/
  hexVal (c : Char) : Nat :=
    if c.isDigit then c.toNat - 48
    else if 'a' ≤ c && c ≤ 'f' then c.toNat - 87
    else c.toNat - 55
  /-- Single-character JSON escapes. -/
  escMap : Char → Option Char
    | '"' => some '"'
    | '\\' => some '\\'
    | '/' => some '/'
    | 'b' => some '\x08'
    | 'f' => some '\x0c'
    | 'n' => some '\n'
    | 'r' => some '\r'
    | 't' => some '\t'
    | _ => none

/-- Digit run to a natural number. -/
def digitsToNat (ds : List Char) : Nat :=
  ds.foldl (fun a c => a * 10 + (c.toNat - 48)) 0

/-- An unsigned JSON integer token: a digit run without a leading zero
(except "0" itself), not followed by `.`/`e`/`E` (floats are outside the
model and make the parse fail). -/
def parseNumTok (l : List Char) : Option (Nat × List Char) :=
  let ds := l.takeWhile Char.isDigit
  let rest := l.dropWhile Char.isDigit
  if ds.isEmpty then none
  else if 2 ≤ ds.length && ds.head? = some '0' then none
  else
    match rest.head? with
    | some c => if c = '.' || c = 'e' || c = 'E' then none else some (digitsToNat ds, rest)
    | none => some (digitsToNat ds, rest)

def litTrue : List Char := 't' :: 'r' :: 'u' :: 'e' :: []
def litFalse : List Char := 'f' :: 'a' :: 'l' :: 's' :: 'e' :: []
def litNull : List Char := 'n' :: 'u' :: 'l' :: 'l' :: []

mutual

/-- A JSON value, preceded by optional whitespace.  Fuel-indexed
recursive-descent scanner for `json.loads`. -/
def parseVal : Nat → List Char → Option (Json × List Char)
  | 0, _ => none
  | fuel + 1, l =>
    match l.dropWhile isJsonWs with
    | [] => none
    | c :: r =>
      if c = '{' then
        match r.dropWhile isJsonWs with
        | '}' :: r2 => some (Json.obj [], r2)
        | _ =>
          match parseMembers fuel r with
          | some (kvs, rest) => some (Json.obj kvs, rest)
          | none => none
      else if c = '[' then
        match r.dropWhile isJsonWs with
        | ']' :: r2 => some (Json.arr [], r2)
        | _ =>
          match parseItems fuel r with
          | some (xs, rest) => some (Json.arr xs, rest)
          | none => none
      else if c = '"' then
        match parseStrBody fuel r with
        | some (s, rest) => some (Json.str s, rest)
        | none => none
      else if litTrue.isPrefixOf (c :: r) then some (Json.bool true, (c :: r).drop 4)
      else if litFalse.isPrefixOf (c :: r) then some (Json.bool false, (c :: r).drop 5)
      else if litNull.isPrefixOf (c :: r) then some (Json.null, (c :: r).drop 4)
      else if c = '-' then
        match parseNumTok r with
        | some (n, rest) => some (Json.num (-(n : Int)), rest)
        | none => none
      else
        match parseNumTok (c :: r) with
        | some (n, rest) => some (Json.num (n : Int), rest)
        | none => none

/-- One or more `"key": value` members of a JSON object, consuming the
closing `}`. -/
def parseMembers : Nat → List Char → Option (List (List Char × Json) × List Char)
  | 0, _ => none
  | fuel + 1, l =>
    match l.dropWhile isJsonWs with
    | '"' :: r =>
      match parseStrBody fuel r with
      | some (k, r2) =>
        match r2.dropWhile isJsonWs with
        | ':' :: r3 =>
          match parseVal fuel r3 with
          | some (v, r4) =>
            match r4.dropWhile isJsonWs with
            | ',' :: r5 =>
              match parseMembers fuel r5 with
              | some (kvs, rest) => some ((k, v) :: kvs, rest)
              | none => none
            | '}' :: r5 => some ([(k, v)], r5)
            | _ => none
          | none => none
        | _ => none
      | none => none
    | _ => none

/-- One or more array items, consuming the closing `]`. -/
def parseItems : Nat → List Char → Option (List Json × List Char)
  | 0, _ => none
  | fuel + 1, l =>
    match parseVal fuel l with
    | some (v, r) =>
      match r.dropWhile isJsonWs with
      | ',' :: r2 =>
        match parseItems fuel r2 with
        | some (xs, rest) => some (v :: xs, rest)
        | none => none
      | ']' :: r2 => some (v :: [], r2)
      | _ => none
    | none => none

end

/-- Model of Python's `json.loads`: parse one value, then require only
whitespace to remain ("Extra data" otherwise).  The fuel `2 * length + 2`
is ample for any input that parses at all. -/
def json_loads (l : List Char) : Option Json :=
  match parseVal (2 * l.length + 2) l with
  | some (v, rest) => if rest.all isJsonWs then some v else none
  | none => none

/-- Python's `str.strip()` on a character list (ASCII whitespace). -/
def pyStrip (l : List Char) : List Char :=
  ((l.dropWhile isPyWs).reverse.dropWhile isPyWs).reverse

/-- Fuel-indexed core of `str.replace`: each step consumes at least one
character, so fuel equal to the input length suffices; with the fuel
exhausted the remainder is returned unchanged (unreachable when the fuel
is at least the length). -/
def pyReplaceF (pat repl : List Char) : Nat → List Char → List Char
  | 0, l => l
  | _ + 1, [] => []
  | fuel + 1, c :: r =>
    if pat ≠ [] ∧ pat.isPrefixOf (c :: r) then
      repl ++ pyReplaceF pat repl fuel ((c :: r).drop pat.length)
    else
      c :: pyReplaceF pat repl fuel r

/-- Python's `str.replace(pat, repl)`: replace every non-overlapping
occurrence, scanning left to right.  (Python's behaviour for an empty
pattern - inserting `repl` at every position - is not modelled; the
program only replaces nonempty patterns.) -/
def pyReplace (pat repl l : List Char) : List Char :=
  pyReplaceF pat repl l.length l

/-- Does `pat` occur as a contiguous substring of `l`? -/
def containsSub (pat : List Char) : List Char → Bool
  | [] => pat.isPrefixOf []
  | c :: r => pat.isPrefixOf (c :: r) || containsSub pat r

def fence3 : List Char := '`' :: '`' :: '`' :: []
def fence7 : List Char := '`' :: '`' :: '`' :: 'j' :: 's' :: 'o' :: 'n' :: []

/-- `main.py` lines 86-88: `text_res = response.text.strip()`, then if it
starts with a code fence, delete every occurrence of "```json" and then
every occurrence of "```". -/
def stripFences (l : List Char) : List Char :=
  let s := pyStrip l
  if fence3.isPrefixOf s then pyReplace fence3 [] (pyReplace fence7 [] s) else s

/-- `main.py` lines 91-92: if the parsed JSON is a list, use its first
element, or an empty object when the list is empty. -/
def coerceList : Json → Json
  | Json.arr [] => Json.obj []
  | Json.arr (x :: _) => x
  | j => j

/-- Python dict lookup on an object built by `json.loads`: the last
binding for a repeated key wins. -/
def jget (kvs : List (List Char × Json)) (k : List Char) : Option Json :=
  match kvs with
  | [] => none
  | (k', v) :: rest =>
    match jget rest k with
    | some v' => some v'
    | none => if k' = k then some v else none

def scoreKey : List Char := "score".toList
def feedbackKey : List Char := "feedback".toList

/-- `main.py` line 95 default: "피드백 생성 실패" (feedback generation failed). -/
def defaultFeedback : Json := Json.str "피드백 생성 실패".toList

/-- `main.py` lines 86-95: strip fences, `json.loads`, coerce lists, then
read `score` (default 0) and `feedback` (default message) with dict
`.get`.  Returns `none` when `json.loads` raises or when the coerced
value is not a dict (`.get` would raise `AttributeError`); the worker
catches either as a grading failure. -/
def gradeParsed (text : List Char) : Option (Json × Json) :=
  match json_loads (stripFences text) with
  | none => none
  | some j =>
    match coerceList j with
    | Json.obj kvs =>
      some ((jget kvs scoreKey).getD (Json.num 0),
            (jget kvs feedbackKey).getD defaultFeedback)
    | _ => none

/-- `main.py` line 108: the fixed Korean failure message
("the server is busy, grading failed; please try again later"). -/
def busyMsg : Json := Json.str "서버 사용량이 많아 채점에 실패했습니다. 잠시 후 다시 시도해주세요.".toList

/-- `main.py` line 224: the placeholder feedback stored at submission
time ("registered in the grading queue; please wait"). -/
def waitMsg : Json := Json.str "채점 대기열에 등록되었습니다. 잠시만 기다려주세요...".toList

/-- Values the sqlite3 driver can bind as a parameter (str/int/bool/None).
Assigning a list or dict to `submission.score` / `submission.ai_feedback`
makes `session.commit()` raise, which the worker's `except` catches. -/
def sqliteBindable : Json → Bool
  | Json.arr _ => false
  | Json.obj _ => false
  | _ => true

/-- Outcome of `main.py` lines 85-99 up to the successful commit, as a
function of the environment's grader response.  `resp = none` models any
exception from `model.generate_content` / `response.text` (network
error, blocked prompt); `some text` is the raw response text.  A `none`
result means some exception was raised and control reached the `except`
branch. -/
def applyOutcome (resp : Option (List Char)) : Option (Json × Json) :=
  match resp with
  | none => none
  | some text =>
    match gradeParsed text with
    | none => none
    | some (sc, fb) =>
      if sqliteBindable sc && sqliteBindable fb then some (sc, fb) else none

/-- One problem of the static `problems.yaml` catalog (`PROBLEMS_DICT`
values).  The catalog file is not part of the repository's source, so
its contents stay abstract: every theorem quantifies over the catalog. -/
structure Problem where
  id : Nat
  title : List Char
  description : List Char
  chapter : List Char
  course_name : List Char
  ai_prompt : List Char
deriving DecidableEq

/-- A `Submission` row (`models.py` lines 27-35).  `score` and
`ai_feedback` hold whatever Python value the worker assigned - the
sqlite layer does not enforce the declared `Optional[int]` /
`Optional[str]` types - so both are modelled as optional JSON values.
`created_at` is a logical timestamp. -/
structure Submission where
  id : Nat
  student_id : Nat
  problem_id : Nat
  code_answer : List Char
  ai_feedback : Option Json
  score : Option Json
  status : String
  created_at : Nat

/-- A grading job queued by `submit` (`main.py` line 229): the tuple
`(submission.id, problem, req.code_answer)`. -/
structure Job where
  submission_id : Nat
  problem_info : Problem
  code : List Char

/-- `session.get(Submission, id)`: primary-key lookup. -/
def findSub (subs : List Submission) (id : Nat) : Option Submission :=
  subs.find? (fun s => s.id = id)

/-- Persisting a mutated row (`session.add` + `session.commit` of an
existing row): replace the row with the matching primary key. -/
def updateSub (subs : List Submission) (id : Nat) (f : Submission → Submission) :
    List Submission :=
  subs.map (fun s => if s.id = id then f s else s)

/-- The request body of `POST /api/submit` (`models.py` lines 50-53). -/
structure SubmitRequest where
  student_id : Nat
  problem_id : Nat
  code_answer : List Char

/-- The mutable server state touched by the grading pipeline: the
`submission` table, the `asyncio.Queue` contents (FIFO: producers append,
the worker pops the head), the queue's internal unfinished-task counter
(`put` increments it, `task_done` decrements it; `get` does not touch
it), the autoincrement primary-key counter and a logical clock for
`created_at`. -/
structure ServerState where
  submissions : List Submission
  queue : List Job
  next_id : Nat
  now : Nat
  unfinished : Nat

/-- `POST /api/submit` (`main.py` lines 215-231): look up the problem in
`PROBLEMS_DICT` (404 when absent), insert a `grading`-status row, then
enqueue `(submission.id, problem, code)`; returns the fresh row.  On 404
nothing is written.  The `put` raises the queue's unfinished-task count
by one. -/
def submit (catalog : List Problem) (s : ServerState) (req : SubmitRequest) :
    Except Nat (ServerState × Submission) :=
  match catalog.find? (fun p => p.id = req.problem_id) with
  | none => Except.error 404
  | some problem =>
    let sub : Submission :=
      { id := s.next_id, student_id := req.student_id, problem_id := req.problem_id,
        code_answer := req.code_answer, ai_feedback := some waitMsg,
        score := none, status := "grading", created_at := s.now }
    Except.ok
      ({ s with
          submissions := s.submissions ++ [sub],
          queue := s.queue ++ [{ submission_id := sub.id, problem_info := problem,
                                 code := req.code_answer }],
          next_id := s.next_id + 1,
          now := s.now + 1,
          unfinished := s.unfinished + 1 },
       sub)

/-- Observable actions of one worker iteration, for the temporal claims:
a grading call for a submission id, an `asyncio.sleep` of the given
number of milliseconds, or an uncaught `ValueError` escaping the
iteration (from `task_done()` called with the unfinished count already
zero), which kills the worker coroutine. -/
inductive WAction where
  | grade (submission_id : Nat) : WAction
  | sleep (ms : Nat) : WAction
  | valueError : WAction
deriving DecidableEq

/-- `asyncio.Queue.task_done()`: decrement the unfinished-task count, or
raise `ValueError` (`none`) when it is already zero. -/
def taskDone (n : Nat) : Option Nat :=
  if n = 0 then none else some (n - 1)

/-- Mutating a fetched row to its completed state (`main.py` lines 94-96
on success with the parsed score/feedback, lines 107-109 on failure with
`Json.num 0` and `busyMsg`). -/
def completeWith (sc fb : Json) (sub : Submission) : Submission :=
  { sub with score := some sc, ai_feedback := some fb, status := "completed" }

/-- One iteration of `process_submission_queue` (`main.py` lines 61-116)
when a job is available, together with its visible actions.  `resp` is
the environment's grader response for this job (see `applyOutcome`).
With an empty queue the worker stays suspended on `dequeue` and nothing
happens.  On a missing row, line 69 calls `task_done()` inside the
`try` and the `continue` still runs the `finally` (lines 113-116),
which calls `task_done()` a second time - so the iteration decrements
the unfinished count twice, and whichever of the two calls finds the
count at zero raises `ValueError` (a raise at line 69 is caught by the
`except`, whose re-fetch finds the row still missing and writes
nothing, and the `finally`'s call then raises again); the raise in the
`finally` propagates, killing the worker before the sleep.  On a
present row the grading call runs, the row is committed as `completed`
with either the parsed result or the zero-score fallback, and the
`finally` runs its single `task_done()`: if the count is already zero
the `ValueError` propagates after the commit and before the sleep,
otherwise the iteration ends with the 6500 ms sleep. -/
def workerStep (s : ServerState) (resp : Option (List Char)) :
    ServerState × List WAction :=
  match s.queue with
  | [] => (s, [])
  | job :: rest =>
    match findSub s.submissions job.submission_id with
    | none =>
      match taskDone s.unfinished with
      | none => ({ s with queue := rest }, [WAction.valueError])
      | some u1 =>
        match taskDone u1 with
        | none => ({ s with queue := rest, unfinished := 0 }, [WAction.valueError])
        | some u2 => ({ s with queue := rest, unfinished := u2 }, [WAction.sleep 6500])
    | some _ =>
      match applyOutcome resp, taskDone s.unfinished with
      | some (sc, fb), some u1 =>
        ({ s with
            queue := rest,
            submissions := updateSub s.submissions job.submission_id (completeWith sc fb),
            unfinished := u1 },
         [WAction.grade job.submission_id, WAction.sleep 6500])
      | some (sc, fb), none =>
        ({ s with
            queue := rest,
            submissions := updateSub s.submissions job.submission_id (completeWith sc fb) },
         [WAction.grade job.submission_id, WAction.valueError])
      | none, some u1 =>
        ({ s with
            queue := rest,
            submissions := updateSub s.submissions job.submission_id
              (completeWith (Json.num 0) busyMsg),
            unfinished := u1 },
         [WAction.grade job.submission_id, WAction.sleep 6500])
      | none, none =>
        ({ s with
            queue := rest,
            submissions := updateSub s.submissions job.submission_id
              (completeWith (Json.num 0) busyMsg) },
         [WAction.grade job.submission_id, WAction.valueError])

/-- The worker loop run over a list of grader responses, one per
processed job.  An iteration whose `ValueError` escapes ends the loop:
the coroutine is dead and the remaining responses are never consumed. -/
def runWorker (s : ServerState) : List (Option (List Char)) → ServerState
  | [] => s
  | r :: rs =>
    if WAction.valueError ∈ (workerStep s r).2 then (workerStep s r).1
    else runWorker (workerStep s r).1 rs

/-- The concatenated action trace of the worker loop, cut short by the
iteration (if any) whose `ValueError` escapes. -/
def runTrace (s : ServerState) : List (Option (List Char)) → List WAction
  | [] => []
  | r :: rs =>
    if WAction.valueError ∈ (workerStep s r).2 then (workerStep s r).2
    else (workerStep s r).2 ++ runTrace (workerStep s r).1 rs

/-- The operations that mutate the `submission` table.  All other
endpoints of `main.py` (`login`, `setup_system`, `activate_class`,
`update_progress`) write only to other tables, and `check_submission`,
`get_problems`, `get_status` are read-only, so they are identity steps
on this state. -/
inductive Op where
  | submitReq (req : SubmitRequest) : Op
  | worker (resp : Option (List Char)) : Op

/-- Effect of an operation on the server state.  A rejected submit (404)
leaves the state unchanged. -/
def step (catalog : List Problem) (s : ServerState) : Op → ServerState
  | Op.submitReq req =>
    match submit catalog s req with
    | Except.ok (s1, _) => s1
    | Except.error _ => s
  | Op.worker resp => (workerStep s resp).1

/-- The empty state at process start. -/
def initState : ServerState :=
  { submissions := [], queue := [], next_id := 0, now := 0, unfinished := 0 }

/-- States reachable from process start by submit requests and worker
iterations.  (The relation lets worker steps follow a crashed
iteration, which cannot happen in the running program; the extra states
only enlarge the set over which the invariants below are proven.) -/
inductive Reachable (catalog : List Problem) : ServerState → Prop where
  | init : Reachable catalog initState
  | step (s : ServerState) (op : Op) :
      Reachable catalog s → Reachable catalog (step catalog s op)

/-- Insertion of one row into a list sorted by `created_at` descending. -/
def insertDesc (x : Submission) : List Submission → List Submission
  | [] => [x]
  | y :: r => if y.created_at ≤ x.created_at then x :: y :: r else y :: insertDesc x r

/-- Model of the `ORDER BY created_at DESC` of the two submission
queries (`main.py` lines 199 and 268).  SQL leaves the relative order of
equal timestamps unspecified; the selection theorems therefore assume
distinct timestamps among the relevant rows. -/
def subSortDesc : List Submission → List Submission
  | [] => []
  | x :: r => insertDesc x (subSortDesc r)

/-- The Python first-wins dict-building loops of `main.py` lines 200-202
and 269-272: iterate over the sorted rows and keep only the first row
seen for each key (`problem_id` for `get_problems`, the
`(student_id, problem_id)` pair for the nested dict of `get_status`). -/
def firstBy {κ : Type} [DecidableEq κ] (key : Submission → κ) (l : List Submission) :
    List (κ × Submission) :=
  l.foldl (fun m sub =>
    if (m.find? (fun e => e.1 = key sub)).isSome then m
    else m ++ [(key sub, sub)]) []

/-- Dict lookup in a `firstBy` map. -/
def mapFind {κ : Type} [DecidableEq κ] (m : List (κ × Submission)) (k : κ) :
    Option Submission :=
  (m.find? (fun e => e.1 = k)).map Prod.snd

/-- The `get_problems` query (`main.py` line 199): this student's
submissions restricted to the active chapter's problem ids, newest
first. -/
def problemsQuery (rows : List Submission) (sid : Nat) (p_ids : List Nat) :
    List Submission :=
  subSortDesc (rows.filter (fun s => s.student_id = sid && p_ids.contains s.problem_id))

/-- The per-problem "most recent submission" map of `get_problems`
(`main.py` lines 199-202). -/
def problemsSubMap (rows : List Submission) (sid : Nat) (p_ids : List Nat) :
    List (Nat × Submission) :=
  firstBy (fun s => s.problem_id) (problemsQuery rows sid p_ids)

/-- The `get_status` query (`main.py` line 268): the classroom's
students' submissions restricted to the active chapter's problem ids,
newest first. -/
def statusQuery (rows : List Submission) (s_ids p_ids : List Nat) : List Submission :=
  subSortDesc (rows.filter (fun s => s_ids.contains s.student_id && p_ids.contains s.problem_id))

/-- The per-(student, problem) "most recent submission" map of
`get_status` (`main.py` lines 268-272); the nested Python dict is
modelled as a map keyed by the pair. -/
def statusSubMap (rows : List Submission) (s_ids p_ids : List Nat) :
    List ((Nat × Nat) × Submission) :=
  firstBy (fun s => (s.student_id, s.problem_id)) (statusQuery rows s_ids p_ids)

/-! ## Helper lemmas about the store -/

theorem find?_id_map (g : Submission → Submission) (hg : ∀ x, (g x).id = x.id)
    (l : List Submission) (id : Nat) :
    List.find? (fun s => s.id = id) (l.map g)
      = (List.find? (fun s => s.id = id) l).map g := by
  induction l with
  | nil => rfl
  | cons a l ih =>
    simp only [List.map_cons, List.find?_cons]
    have he : (decide ((g a).id = id)) = (decide (a.id = id)) := by rw [hg]
    rw [he]
    cases hd : decide (a.id = id) <;> simp [ih]

theorem findSub_updateSub (subs : List Submission) (id0 : Nat) (f : Submission → Submission)
    (hf : ∀ x, (f x).id = x.id) (id : Nat) :
    findSub (updateSub subs id0 f) id
      = (findSub subs id).map (fun x => if x.id = id0 then f x else x) := by
  have hg : ∀ x, ((fun s => if s.id = id0 then f s else s) x).id = x.id := by
    intro x
    by_cases h : x.id = id0 <;> simp [h, hf]
  exact find?_id_map _ hg subs id

theorem findSub_some_id (subs : List Submission) (id : Nat) (sub : Submission)
    (h : findSub subs id = some sub) : sub.id = id := by
  have := List.find?_some h
  exact of_decide_eq_true this

/-! ## Concrete fixtures used by witnesses and counterexamples -/

def wProb : Problem :=
  { id := 2, title := "t".toList, description := "d".toList, chapter := "1".toList,
    course_name := "c".toList, ai_prompt := "crit".toList }

def wSub : Submission :=
  { id := 0, student_id := 1, problem_id := 2, code_answer := "print(1)".toList,
    ai_feedback := some waitMsg, score := none, status := "grading", created_at := 0 }

def wJob : Job := { submission_id := 0, problem_info := wProb, code := "print(1)".toList }

def wState : ServerState :=
  { submissions := [wSub], queue := [wJob], next_id := 1, now := 1, unfinished := 1 }

def wSub1 : Submission := { wSub with id := 1, created_at := 1 }

def wJob1 : Job := { wJob with submission_id := 1 }

def wState4 : ServerState :=
  { submissions := [wSub, wSub1], queue := [wJob, wJob1], next_id := 2, now := 2,
    unfinished := 2 }

/-- One queued job whose row is gone (deleted externally), the
unfinished count at 1 as left by that job's `put`: the canonical
missing-row iteration. -/
def wStateMiss : ServerState :=
  { submissions := [], queue := [wJob], next_id := 1, now := 1, unfinished := 1 }

/-- Two queued jobs; the first job's row is gone, the second's row is
present.  The unfinished count 2 matches the two `put` calls. -/
def wStateSkew : ServerState :=
  { submissions := [wSub1], queue := [wJob, wJob1], next_id := 2, now := 2,
    unfinished := 2 }

/-- The state after the skew-creating skip from `wStateSkew`: one
present-row job left, but the unfinished count already at zero. -/
def wStateSkew1 : ServerState :=
  { submissions := [wSub1], queue := [wJob1], next_id := 2, now := 2,
    unfinished := 0 }

/-! ## C1: grading failure degrades to a completed zero-score result -/

/-- C1: for every job the worker processes, if anything fails during the
grader invocation or result application (`applyOutcome resp = none`
covers network errors, malformed or unparseable responses, non-dict
values, unbindable field values) and the submission row exists, the
worker persists that row as `completed` with score 0 and the fixed
Korean failure message.  The `except` block swallows the grading
failure itself, and the commit precedes the `finally`, so whatever the
unfinished count, the row is never left in an unfinished or errored
state (the conclusion holds on both branches of the `finally`'s
`task_done`). -/
theorem C1_failure_completes_with_zero
    (s : ServerState) (job : Job) (rest : List Job) (resp : Option (List Char))
    (sub : Submission)
    (hq : s.queue = job :: rest)
    (hfound : findSub s.submissions job.submission_id = some sub)
    (hfail : applyOutcome resp = none) :
    findSub ((workerStep s resp).1).submissions job.submission_id
      = some (completeWith (Json.num 0) busyMsg sub) := by
  have hid : sub.id = job.submission_id := findSub_some_id _ _ _ hfound
  unfold workerStep
  rw [hq]
  rcases ht : taskDone s.unfinished with _ | u1 <;>
    simp only [hfound, hfail, ht] <;>
    rw [findSub_updateSub s.submissions job.submission_id (completeWith (Json.num 0) busyMsg)
          (fun x => rfl) job.submission_id, hfound] <;>
    simp [hid]

/-- Witness for C1 at a concrete state and a failed grader call. -/
theorem C1_witness :
    findSub ((workerStep wState none).1).submissions 0
      = some (completeWith (Json.num 0) busyMsg wSub) :=
  C1_failure_completes_with_zero wState wJob [] none wSub rfl rfl rfl

/-! ## C3: the missing-row path double-calls task_done - a code bug -/

/-- C3 is false as stated: the missing-row path is not a silent skip.
Line 69 calls `task_done()` and the `continue` still runs the
`finally`'s second `task_done()`; in the canonical case (the dequeued
job is the only outstanding one, so the unfinished count is 1) the
second call raises `ValueError`, the exception propagates out of the
coroutine, and the worker loop dies without sleeping - the remaining
responses are never consumed and no later job is ever processed. -/
theorem C3_missing_row_double_task_done
    (s : ServerState) (job : Job) (rest : List Job) (resp : Option (List Char))
    (hq : s.queue = job :: rest)
    (hmissing : findSub s.submissions job.submission_id = none)
    (hu : s.unfinished = 1) :
    workerStep s resp = ({ s with queue := rest, unfinished := 0 }, [WAction.valueError]) ∧
    (∀ rs, runWorker s (resp :: rs) = { s with queue := rest, unfinished := 0 }) ∧
    (∀ rs, runTrace s (resp :: rs) = [WAction.valueError]) := by
  have h1 : workerStep s resp
      = ({ s with queue := rest, unfinished := 0 }, [WAction.valueError]) := by
    unfold workerStep
    rw [hq]
    simp [hmissing, hu, taskDone]
  refine ⟨h1, fun rs => ?_, fun rs => ?_⟩
  · simp only [runWorker, h1]
    simp
  · simp only [runTrace, h1]
    simp

/-- Witness for the C3 divergence: a queued job whose row is gone, the
unfinished count at 1 - the iteration raises `ValueError`, the trace
holds no sleep and no grading call, and however many responses follow,
none is consumed. -/
theorem C3_crash_witness :
    workerStep wStateMiss none
      = ({ wStateMiss with queue := [], unfinished := 0 }, [WAction.valueError]) ∧
    (∀ rs, runWorker wStateMiss (none :: rs)
      = { wStateMiss with queue := [], unfinished := 0 }) ∧
    (∀ rs, runTrace wStateMiss (none :: rs) = [WAction.valueError]) :=
  C3_missing_row_double_task_done wStateMiss wJob [] none rfl rfl rfl

/-! ## C10: submit with an unknown problem id fails with 404, untouched state -/

/-- C10: a submit request whose `problem_id` is not in the problem
catalog is rejected with HTTP 404 and changes nothing: no submission row
is created and no job is enqueued. -/
theorem C10_unknown_problem_404
    (catalog : List Problem) (s : ServerState) (req : SubmitRequest)
    (h : ∀ p ∈ catalog, p.id ≠ req.problem_id) :
    submit catalog s req = Except.error 404 ∧ step catalog s (Op.submitReq req) = s := by
  have hf : catalog.find? (fun p => p.id = req.problem_id) = none := by
    rw [List.find?_eq_none]
    intro p hp
    simp [h p hp]
  constructor
  · unfold submit
    rw [hf]
  · show (match submit catalog s req with
          | Except.ok (s1, _) => s1
          | Except.error _ => s) = s
    unfold submit
    rw [hf]

/-- Witness for C10: problem id 5 against a catalog holding only id 2. -/
theorem C10_witness :
    submit [wProb] initState { student_id := 1, problem_id := 5, code_answer := [] }
      = Except.error 404 ∧
    step [wProb] initState
      (Op.submitReq { student_id := 1, problem_id := 5, code_answer := [] }) = initState :=
  C10_unknown_problem_404 [wProb] initState _ (by decide)

/-! ## C6: list-shaped responses are tolerated -/

def listRespText : List Char := "[\x7b\"score\":90,\"feedback\":\"good\"\x7d]".toList
def objRespText : List Char := "\x7b\"score\":90,\"feedback\":\"good\"\x7d".toList

/-- C6: a parsed list is replaced by its first element (an empty object
when the list is empty); `[\x7b"score":90,"feedback":"good"\x7d]` parses and
is stored exactly like the bare object, and `[]` yields score 0 with the
default "feedback generation failed" string without raising. -/
theorem C6_list_response_tolerance :
    (∀ (j : Json) (js : List Json), coerceList (Json.arr (j :: js)) = j) ∧
    coerceList (Json.arr []) = Json.obj [] ∧
    gradeParsed listRespText = gradeParsed objRespText ∧
    gradeParsed objRespText = some (Json.num 90, Json.str "good".toList) ∧
    gradeParsed "[]".toList = some (Json.num 0, defaultFeedback) ∧
    (∀ s : ServerState, workerStep s (some listRespText) = workerStep s (some objRespText)) := by
  refine ⟨fun j js => rfl, rfl, rfl, rfl, rfl, fun s => ?_⟩
  unfold workerStep
  rw [show applyOutcome (some listRespText) = applyOutcome (some objRespText) from rfl]

/-! ## C4: the 6.5 s rate-limit sleep is skipped by the crash iteration -/

/-- Does the action record a grading call? -/
def isGradeAct : WAction → Bool
  | WAction.grade _ => true
  | _ => false

/-- A worker iteration's visible actions are one of: nothing (empty
queue, still suspended on dequeue), a bare sleep (job skipped with the
unfinished count at least 2), a bare `ValueError` (job skipped with the
count at most 1), a grading call followed by the sleep, or a grading
call followed by the `ValueError` (count zero at the `finally`). -/
theorem workerStep_trace_shape (s : ServerState) (r : Option (List Char)) :
    (workerStep s r).2 = [] ∨ (workerStep s r).2 = [WAction.sleep 6500] ∨
    (workerStep s r).2 = [WAction.valueError] ∨
    (∃ k, (workerStep s r).2 = [WAction.grade k, WAction.sleep 6500]) ∨
    (∃ k, (workerStep s r).2 = [WAction.grade k, WAction.valueError]) := by
  rcases hq : s.queue with _ | ⟨job, rest⟩
  · left
    simp [workerStep, hq]
  · rcases hf : findSub s.submissions job.submission_id with _ | sub
    · rcases ht : taskDone s.unfinished with _ | u1
      · right; right; left
        simp [workerStep, hq, hf, ht]
      · rcases ht2 : taskDone u1 with _ | u2
        · right; right; left
          simp [workerStep, hq, hf, ht, ht2]
        · right; left
          simp [workerStep, hq, hf, ht, ht2]
    · rcases ho : applyOutcome r with _ | ⟨sc, fb⟩ <;>
        rcases ht : taskDone s.unfinished with _ | u1
      · right; right; right; right
        exact ⟨job.submission_id, by simp [workerStep, hq, hf, ho, ht]⟩
      · right; right; right; left
        exact ⟨job.submission_id, by simp [workerStep, hq, hf, ho, ht]⟩
      · right; right; right; right
        exact ⟨job.submission_id, by simp [workerStep, hq, hf, ho, ht]⟩
      · right; right; right; left
        exact ⟨job.submission_id, by simp [workerStep, hq, hf, ho, ht]⟩

/-- In the flat trace of the worker loop, some 6500 ms sleep separates
any two grading calls. -/
theorem runTrace_sleep_between_grades :
    ∀ (rs : List (Option (List Char))) (s : ServerState) (a mid b : List WAction)
      (i j : Nat),
      runTrace s rs = a ++ WAction.grade i :: (mid ++ WAction.grade j :: b) →
      WAction.sleep 6500 ∈ mid := by
  intro rs
  induction rs with
  | nil =>
    intro s a mid b i j h
    rw [runTrace] at h
    exact absurd h.symm (by simp)
  | cons r rs ih =>
    intro s a mid b i j h
    rw [runTrace] at h
    by_cases hcr : WAction.valueError ∈ (workerStep s r).2
    · rw [if_pos hcr] at h
      rcases workerStep_trace_shape s r with h0 | h0 | h0 | ⟨k, h0⟩ | ⟨k, h0⟩
      · rw [h0] at hcr
        simp at hcr
      · rw [h0] at hcr
        simp at hcr
      · rw [h0] at h
        have h2 := congrArg (List.countP isGradeAct) h
        simp [isGradeAct, List.countP_append, List.countP_cons] at h2
        omega
      · rw [h0] at hcr
        simp at hcr
      · rw [h0] at h
        have h2 := congrArg (List.countP isGradeAct) h
        simp [isGradeAct, List.countP_append, List.countP_cons] at h2
        omega
    · rw [if_neg hcr] at h
      rcases workerStep_trace_shape s r with h0 | h0 | h0 | ⟨k, h0⟩ | ⟨k, h0⟩
      · rw [h0, List.nil_append] at h
        exact ih _ _ _ _ _ _ h
      · rw [h0, List.singleton_append] at h
        cases a with
        | nil => simp at h
        | cons a0 a1 =>
          rw [List.cons_append] at h
          obtain ⟨h1, h2⟩ := List.cons.inj h
          exact ih _ _ _ _ _ _ h2
      · rw [h0] at hcr
        exact absurd (List.mem_singleton.mpr rfl) hcr
      · rw [h0] at h
        cases a with
        | nil =>
          rw [List.nil_append] at h
          obtain ⟨h1, h2⟩ := List.cons.inj h
          cases mid with
          | nil => simp at h2
          | cons m0 m1 =>
            rw [List.cons_append] at h2
            obtain ⟨h3, h4⟩ := List.cons.inj h2
            rw [← h3]
            exact List.mem_cons_self _ _
        | cons a0 a1 =>
          rw [List.cons_append] at h
          obtain ⟨h1, h2⟩ := List.cons.inj h
          cases a1 with
          | nil => simp at h2
          | cons a2 a3 =>
            rw [List.cons_append] at h2
            obtain ⟨h3, h4⟩ := List.cons.inj h2
            exact ih _ _ _ _ _ _ h4
      · rw [h0] at hcr
        simp at hcr

/-- C4 is false as stated: the sleep is not unconditional on every
iteration.  When the unfinished count is already zero at the `finally`
(the skew left by an earlier missing-row iteration's double
`task_done`), the grading iteration commits its row and then
`task_done()` raises `ValueError` at line 114, before the
`await asyncio.sleep(6.5)` at line 116: the iteration emits its grading
call but no sleep, and the worker dies, never to dequeue again.
(`runTrace_sleep_between_grades` shows the between-grades rate floor
itself survives, because the crash ends the loop.) -/
theorem C4_crash_iteration_skips_sleep
    (s : ServerState) (job : Job) (rest : List Job) (resp : Option (List Char))
    (sub : Submission)
    (hq : s.queue = job :: rest)
    (hfound : findSub s.submissions job.submission_id = some sub)
    (hu : s.unfinished = 0) :
    (workerStep s resp).2 = [WAction.grade job.submission_id, WAction.valueError] ∧
    WAction.sleep 6500 ∉ (workerStep s resp).2 ∧
    (∀ rs, runTrace s (resp :: rs)
      = [WAction.grade job.submission_id, WAction.valueError]) := by
  have h1 : (workerStep s resp).2
      = [WAction.grade job.submission_id, WAction.valueError] := by
    unfold workerStep
    rw [hq]
    rcases ho : applyOutcome resp with _ | ⟨sc, fb⟩ <;>
      simp [hfound, ho, hu, taskDone]
  refine ⟨h1, ?_, fun rs => ?_⟩
  · rw [h1]
    simp
  · simp only [runTrace, h1]
    simp

/-- Witness for the C4 divergence, as the reachable tail of the
deferred-crash run: from `wStateSkew` (two queued jobs, the first row
deleted) the skip sleeps but zeroes the count, and the next iteration
grades row 1, raises `ValueError` and never sleeps; the whole
two-response trace is `[sleep 6500, grade 1, valueError]`. -/
theorem C4_crash_witness :
    (workerStep wStateSkew1 none).2 = [WAction.grade 1, WAction.valueError] ∧
    WAction.sleep 6500 ∉ (workerStep wStateSkew1 none).2 ∧
    (∀ rs, runTrace wStateSkew1 (none :: rs)
      = [WAction.grade 1, WAction.valueError]) ∧
    (workerStep wStateSkew none).1 = wStateSkew1 ∧
    runTrace wStateSkew [none, none]
      = [WAction.sleep 6500, WAction.grade 1, WAction.valueError] := by
  have h := C4_crash_iteration_skips_sleep wStateSkew1 wJob1 [] none wSub1 rfl rfl rfl
  exact ⟨h.1, h.2.1, h.2.2, rfl, rfl⟩

/-! ## Reachability invariants -/

/-- Any row of a reachable store has status `grading` or `completed`. -/
theorem reachable_status_cases (catalog : List Problem) (s : ServerState)
    (h : Reachable catalog s) :
    ∀ sub ∈ s.submissions, sub.status = "grading" ∨ sub.status = "completed" := by
  induction h with
  | init => intro sub hs; simp [initState] at hs
  | step s0 op hr ih =>
    intro sub hs
    cases op with
    | submitReq req =>
      rcases hc : catalog.find? (fun p => p.id = req.problem_id) with _ | p <;>
        simp only [step, submit, hc] at hs
      · exact ih sub hs
      · rcases List.mem_append.mp hs with h1 | h1
        · exact ih sub h1
        · left
          rw [List.mem_singleton.mp h1]
    | worker resp =>
      rcases hq : s0.queue with _ | ⟨job, rest⟩
      · simp only [step, workerStep, hq] at hs
        exact ih sub hs
      · rcases hf : findSub s0.submissions job.submission_id with _ | su
        · rcases ht : taskDone s0.unfinished with _ | u1
          · simp only [step, workerStep, hq, hf, ht] at hs
            exact ih sub hs
          · rcases ht2 : taskDone u1 with _ | u2 <;>
              simp only [step, workerStep, hq, hf, ht, ht2] at hs <;>
              exact ih sub hs
        · rcases ho : applyOutcome resp with _ | ⟨sc, fb⟩ <;>
            rcases ht : taskDone s0.unfinished with _ | u1 <;>
            simp only [step, workerStep, hq, hf, ho, ht] at hs <;>
          · rw [updateSub] at hs
            rcases List.mem_map.mp hs with ⟨y, hy, hgy⟩
            by_cases hid : y.id = job.submission_id
            · right
              rw [← hgy]
              simp [hid, completeWith]
            · rw [← hgy]
              simp only [hid, if_false]
              exact ih y hy

/-- The strengthened queue invariant: queued ids are fresh-bounded and
pairwise distinct, store ids are bounded by the autoincrement counter,
and every queued job references a `grading` row. -/
def QueueInv (s : ServerState) : Prop :=
  (∀ job ∈ s.queue, job.submission_id < s.next_id) ∧
  (∀ sub ∈ s.submissions, sub.id < s.next_id) ∧
  List.Pairwise (fun a b => a.submission_id ≠ b.submission_id) s.queue ∧
  (∀ job ∈ s.queue, ∃ sub, findSub s.submissions job.submission_id = some sub ∧
     sub.status = "grading")

theorem findSub_append_new (subs : List Submission) (n : Submission)
    (hnone : findSub subs n.id = none) :
    findSub (subs ++ [n]) n.id = some n := by
  rw [findSub, List.find?_append]
  rw [findSub] at hnone
  rw [hnone]
  simp [findSub]

theorem reachable_queue_inv (catalog : List Problem) (s : ServerState)
    (h : Reachable catalog s) : QueueInv s := by
  induction h with
  | init =>
    refine ⟨?_, ?_, ?_, ?_⟩ <;> simp [initState]
  | step s0 op hr ih =>
    obtain ⟨hqb, hsb, hnd, hgr⟩ := ih
    cases op with
    | submitReq req =>
      rcases hc : catalog.find? (fun p => p.id = req.problem_id) with _ | p
      · simp only [step, submit, hc]
        exact ⟨hqb, hsb, hnd, hgr⟩
      · simp only [step, submit, hc]
        refine ⟨?_, ?_, ?_, ?_⟩
        · intro job hj
          rcases List.mem_append.mp hj with hj | hj
          · exact Nat.lt_succ_of_lt (hqb job hj)
          · rw [List.mem_singleton.mp hj]
            exact Nat.lt_succ_self _
        · intro sub hsm
          rcases List.mem_append.mp hsm with hsm | hsm
          · exact Nat.lt_succ_of_lt (hsb sub hsm)
          · rw [List.mem_singleton.mp hsm]
            exact Nat.lt_succ_self _
        · rw [List.pairwise_append]
          refine ⟨hnd, List.pairwise_singleton _ _, ?_⟩
          intro a ha b hb
          rw [List.mem_singleton.mp hb]
          exact Nat.ne_of_lt (hqb a ha)
        · intro job hj
          rcases List.mem_append.mp hj with hj | hj
          · obtain ⟨sub, hfind, hst⟩ := hgr job hj
            refine ⟨sub, ?_, hst⟩
            rw [findSub, List.find?_append]
            rw [findSub] at hfind
            rw [hfind]
            rfl
          · rw [List.mem_singleton.mp hj]
            refine ⟨_, findSub_append_new _ _ ?_, rfl⟩
            rw [findSub, List.find?_eq_none]
            intro x hx
            simp [Nat.ne_of_lt (hsb x hx)]
    | worker resp =>
      rcases hq : s0.queue with _ | ⟨job, rest⟩
      · simp only [step, workerStep, hq]
        exact ⟨hqb, hsb, hnd, hgr⟩
      · rw [hq] at hqb hnd hgr
        rcases hf : findSub s0.submissions job.submission_id with _ | su
        · rcases ht : taskDone s0.unfinished with _ | u1
          · simp only [step, workerStep, hq, hf, ht]
            exact ⟨fun j hj => hqb j (List.mem_cons_of_mem _ hj), hsb,
                   (List.pairwise_cons.mp hnd).2,
                   fun j hj => hgr j (List.mem_cons_of_mem _ hj)⟩
          · rcases ht2 : taskDone u1 with _ | u2 <;>
              simp only [step, workerStep, hq, hf, ht, ht2] <;>
              exact ⟨fun j hj => hqb j (List.mem_cons_of_mem _ hj), hsb,
                     (List.pairwise_cons.mp hnd).2,
                     fun j hj => hgr j (List.mem_cons_of_mem _ hj)⟩
        · have hupd : ∀ (g : Submission → Submission), (∀ x, (g x).id = x.id) →
              (∀ sub ∈ updateSub s0.submissions job.submission_id g,
                 sub.id < s0.next_id) := by
            intro g hg sub hsm
            rw [updateSub] at hsm
            rcases List.mem_map.mp hsm with ⟨y, hy, hgy⟩
            by_cases hid : y.id = job.submission_id
            · rw [← hgy]
              by_cases hb : (if y.id = job.submission_id then g y else y) = g y
              · rw [hb, hg]
                exact hsb y hy
              · simp [hid] at hb
            · rw [← hgy]
              simp only [hid, if_false]
              exact hsb y hy
          have hrest : ∀ (g : Submission → Submission), (∀ x, (g x).id = x.id) →
              ∀ j ∈ rest, ∃ sub,
                findSub (updateSub s0.submissions job.submission_id g) j.submission_id
                  = some sub ∧ sub.status = "grading" := by
            intro g hg j hj
            obtain ⟨sub, hfind, hst⟩ := hgr j (List.mem_cons_of_mem _ hj)
            have hne : j.submission_id ≠ job.submission_id :=
              fun he => ((List.pairwise_cons.mp hnd).1 j hj he.symm).elim
            refine ⟨sub, ?_, hst⟩
            rw [findSub_updateSub _ _ _ hg, hfind]
            have : sub.id = j.submission_id := findSub_some_id _ _ _ hfind
            simp [this, hne]
          rcases ho : applyOutcome resp with _ | ⟨sc, fb⟩ <;>
            rcases ht : taskDone s0.unfinished with _ | u1 <;>
            simp only [step, workerStep, hq, hf, ho, ht] <;>
          · refine ⟨fun j hj => hqb j (List.mem_cons_of_mem _ hj),
                    hupd _ (fun x => rfl),
                    (List.pairwise_cons.mp hnd).2,
                    hrest _ (fun x => rfl)⟩

/-! ## C7: status transitions only grading -> completed, only by the worker -/

/-- C7: in any reachable state, one step changes a row's status only
from `grading` to `completed` (or not at all); a row created by a step
starts at `grading`; a submit request never modifies an existing row (so
only the worker's success or failure path ever completes one); and a
completed row never goes back. -/
theorem C7_status_single_transition
    (catalog : List Problem) (s : ServerState) (op : Op) (id : Nat)
    (hreach : Reachable catalog s) :
    (∀ sub sub', findSub s.submissions id = some sub →
       findSub (step catalog s op).submissions id = some sub' →
       sub'.status = sub.status ∨ (sub.status = "grading" ∧ sub'.status = "completed")) ∧
    (∀ sub', findSub s.submissions id = none →
       findSub (step catalog s op).submissions id = some sub' →
       sub'.status = "grading") ∧
    (∀ req sub, op = Op.submitReq req → findSub s.submissions id = some sub →
       findSub (step catalog s op).submissions id = some sub) ∧
    (∀ sub sub', sub.status = "completed" → findSub s.submissions id = some sub →
       findSub (step catalog s op).submissions id = some sub' →
       sub'.status = "completed") := by
  have main :
      (∀ sub sub', findSub s.submissions id = some sub →
         findSub (step catalog s op).submissions id = some sub' →
         sub' = sub ∨ sub'.status = "completed") ∧
      (∀ sub', findSub s.submissions id = none →
         findSub (step catalog s op).submissions id = some sub' →
         sub'.status = "grading") ∧
      (∀ req sub, op = Op.submitReq req → findSub s.submissions id = some sub →
         findSub (step catalog s op).submissions id = some sub) := by
    cases op with
    | submitReq req =>
      rcases hc : catalog.find? (fun p => p.id = req.problem_id) with _ | p
      · simp only [step, submit, hc]
        refine ⟨fun sub sub' h1 h2 => ?_, fun sub' h1 h2 => ?_, fun req0 sub h0 h1 => h1⟩
        · rw [h1] at h2
          exact Or.inl (Option.some.inj h2).symm
        · rw [h1] at h2
          exact absurd h2 (by simp)
      · simp only [step, submit, hc]
        refine ⟨fun sub sub' h1 h2 => ?_, fun sub' h1 h2 => ?_, fun req0 sub h0 h1 => ?_⟩
        · rw [findSub, List.find?_append] at h2
          rw [findSub] at h1
          rw [h1] at h2
          exact Or.inl (Option.some.inj h2).symm
        · rw [findSub, List.find?_append] at h2
          rw [findSub] at h1
          rw [h1, Option.none_or] at h2
          have hmem := List.mem_of_find?_eq_some h2
          rw [List.mem_singleton.mp hmem]
        · rw [findSub, List.find?_append]
          rw [findSub] at h1
          rw [h1]
          rfl
    | worker resp =>
      rcases hq : s.queue with _ | ⟨job, rest⟩
      · simp only [step, workerStep, hq]
        refine ⟨fun sub sub' h1 h2 => ?_, fun sub' h1 h2 => ?_,
                fun req0 sub h0 => nomatch h0⟩
        · rw [h1] at h2
          exact Or.inl (Option.some.inj h2).symm
        · rw [h1] at h2
          exact absurd h2 (by simp)
      · rcases hf : findSub s.submissions job.submission_id with _ | su
        · rcases ht : taskDone s.unfinished with _ | u1
          · simp only [step, workerStep, hq, hf, ht]
            refine ⟨fun sub sub' h1 h2 => ?_, fun sub' h1 h2 => ?_,
                    fun req0 sub h0 => nomatch h0⟩
            · rw [h1] at h2
              exact Or.inl (Option.some.inj h2).symm
            · rw [h1] at h2
              exact absurd h2 (by simp)
          · rcases ht2 : taskDone u1 with _ | u2 <;>
              simp only [step, workerStep, hq, hf, ht, ht2] <;>
              refine ⟨fun sub sub' h1 h2 => ?_, fun sub' h1 h2 => ?_,
                      fun req0 sub h0 => nomatch h0⟩ <;>
              rw [h1] at h2
            · exact Or.inl (Option.some.inj h2).symm
            · exact absurd h2 (by simp)
            · exact Or.inl (Option.some.inj h2).symm
            · exact absurd h2 (by simp)
        · have hupd : ∀ sc fb,
              (∀ sub sub', findSub s.submissions id = some sub →
                findSub (updateSub s.submissions job.submission_id (completeWith sc fb))
                    id = some sub' →
                sub' = sub ∨ sub'.status = "completed") ∧
              (∀ sub', findSub s.submissions id = none →
                findSub (updateSub s.submissions job.submission_id (completeWith sc fb))
                    id = some sub' → sub'.status = "grading") := by
            intro sc fb
            constructor
            · intro sub sub' h1 h2
              rw [findSub_updateSub s.submissions job.submission_id
                    (completeWith sc fb) (fun x => rfl) id, h1] at h2
              by_cases hid : sub.id = job.submission_id
              · have h3 : completeWith sc fb sub = sub' := by
                  simpa [hid] using h2
                right
                rw [← h3]
                rfl
              · have h3 : sub = sub' := by
                  simpa [hid] using h2
                exact Or.inl h3.symm
            · intro sub' h1 h2
              rw [findSub_updateSub s.submissions job.submission_id
                    (completeWith sc fb) (fun x => rfl) id, h1] at h2
              exact absurd h2 (by simp)
          rcases ho : applyOutcome resp with _ | ⟨sc, fb⟩ <;>
            rcases ht : taskDone s.unfinished with _ | u1 <;>
            simp only [step, workerStep, hq, hf, ho, ht]
          · exact ⟨(hupd (Json.num 0) busyMsg).1, (hupd (Json.num 0) busyMsg).2,
                   fun req0 sub h0 => nomatch h0⟩
          · exact ⟨(hupd (Json.num 0) busyMsg).1, (hupd (Json.num 0) busyMsg).2,
                   fun req0 sub h0 => nomatch h0⟩
          · exact ⟨(hupd sc fb).1, (hupd sc fb).2, fun req0 sub h0 => nomatch h0⟩
          · exact ⟨(hupd sc fb).1, (hupd sc fb).2, fun req0 sub h0 => nomatch h0⟩
  obtain ⟨m1, m2, m3⟩ := main
  refine ⟨?_, m2, m3, ?_⟩
  · intro sub sub' h1 h2
    rcases m1 sub sub' h1 h2 with he | hc
    · exact Or.inl (by rw [he])
    · rcases reachable_status_cases catalog s hreach sub (List.mem_of_find?_eq_some h1)
        with hg | hcpl
      · exact Or.inr ⟨hg, hc⟩
      · exact Or.inl (by rw [hc, hcpl])
  · intro sub sub' hcpl h1 h2
    rcases m1 sub sub' h1 h2 with he | hc
    · rw [he]
      exact hcpl
    · exact hc

/-- Witness fixtures: one submit request against a one-problem catalog,
the state after the submit, and the row it creates. -/
def wReq : SubmitRequest := { student_id := 1, problem_id := 2, code_answer := "x".toList }

def wReach1 : ServerState := step [wProb] initState (Op.submitReq wReq)

def wRow : Submission :=
  { id := 0, student_id := 1, problem_id := 2, code_answer := "x".toList,
    ai_feedback := some waitMsg, score := none, status := "grading", created_at := 0 }

/-- Witness for C7: the one-step transition of the submitted row under a
failing worker iteration is `grading` to `completed`. -/
theorem C7_witness :
    (completeWith (Json.num 0) busyMsg wRow).status = wRow.status ∨
      (wRow.status = "grading" ∧
        (completeWith (Json.num 0) busyMsg wRow).status = "completed") :=
  (C7_status_single_transition [wProb] wReach1 (Op.worker none) 0
      (Reachable.step initState (Op.submitReq wReq) Reachable.init)).1
    wRow (completeWith (Json.num 0) busyMsg wRow) rfl rfl

/-! ## C9: the row exists with status grading before the job is enqueued -/

/-- C9: in every reachable state each queued job references an existing
`grading` row, and an accepted submit request appends exactly one job to
the queue whose submission id is the id of the row it just created with
status `grading` - so the row is durably in the store when the job
becomes visible to the worker. -/
theorem C9_row_created_before_enqueue
    (catalog : List Problem) (s : ServerState) (hreach : Reachable catalog s) :
    (∀ job ∈ s.queue, ∃ sub, findSub s.submissions job.submission_id = some sub ∧
       sub.status = "grading") ∧
    (∀ req s1 ret, submit catalog s req = Except.ok (s1, ret) →
       ret.status = "grading" ∧
       findSub s1.submissions ret.id = some ret ∧
       (∃ job, s1.queue = s.queue ++ [job] ∧ job.submission_id = ret.id) ∧
       (∀ job ∈ s1.queue, ∃ sub, findSub s1.submissions job.submission_id = some sub ∧
          sub.status = "grading")) := by
  obtain ⟨hqb, hsb, hnd, hgr⟩ := reachable_queue_inv catalog s hreach
  refine ⟨hgr, ?_⟩
  intro req s1 ret hok
  have hstep : step catalog s (Op.submitReq req) = s1 := by
    show (match submit catalog s req with
          | Except.ok (s1, _) => s1
          | Except.error _ => s) = s1
    rw [hok]
  have hreach1 : Reachable catalog s1 :=
    hstep ▸ Reachable.step s (Op.submitReq req) hreach
  have hgr1 := (reachable_queue_inv catalog s1 hreach1).2.2.2
  rcases hc : catalog.find? (fun p => p.id = req.problem_id) with _ | p
  · rw [submit, hc] at hok
    exact absurd hok (by simp)
  · rw [submit, hc] at hok
    obtain ⟨hs1, hret⟩ := Prod.mk.injEq .. ▸ Except.ok.inj hok
    refine ⟨?_, ?_, ?_, hgr1⟩
    · rw [← hret]
    · rw [← hret, ← hs1]
      refine findSub_append_new _ _ ?_
      rw [findSub, List.find?_eq_none]
      intro x hx
      simp [Nat.ne_of_lt (hsb x hx)]
    · exact ⟨{ submission_id := s.next_id, problem_info := p, code := req.code_answer },
             by rw [← hs1], by rw [← hret]⟩

/-- Witness for C9: the submit of `wReq` creates row 0 as `grading` and
it is findable in the store of the post-submit state. -/
theorem C9_witness :
    wRow.status = "grading" ∧ findSub wReach1.submissions wRow.id = some wRow := by
  have h := (C9_row_created_before_enqueue [wProb] initState Reachable.init).2
    wReq wReach1 wRow rfl
  exact ⟨h.1, h.2.1⟩

/-! ## C2: completed scores and the 0..100 range -/

def score150Text : List Char := "\x7b\"score\": 150, \"feedback\": \"ok\"\x7d".toList

def wReach2 : ServerState := step [wProb] wReach1 (Op.worker (some score150Text))

/-- C2 counterexample: the grader response `\x7b"score": 150, "feedback":
"ok"\x7d` is accepted by the worker and persisted verbatim - the reachable
state `wReach2` holds a `completed` submission with score 150, outside
0..100.  The worker never clamps or validates the score. -/
theorem C2_counterexample :
    (findSub wReach2.submissions 0).map (fun x => (x.status, x.score))
      = some ("completed", some (Json.num 150)) ∧ ¬ ((150 : Int) ≤ 100) :=
  ⟨rfl, by decide⟩

/-- C2 (amended): the failure path persists exactly score 0, which lies
in 0..100; the success path persists exactly the grader's accepted score
value with no clamping, so the persisted score lies in 0..100 precisely
when the grader's value does (in particular whenever the score field is
a number in 0..100 or missing, the default 0 applying then). -/
theorem C2_amended_score_range
    (s : ServerState) (job : Job) (rest : List Job) (resp : Option (List Char))
    (sub : Submission) (hq : s.queue = job :: rest)
    (hfound : findSub s.submissions job.submission_id = some sub) :
    (applyOutcome resp = none →
       findSub ((workerStep s resp).1).submissions job.submission_id
         = some (completeWith (Json.num 0) busyMsg sub)) ∧
    (∀ sc fb, applyOutcome resp = some (sc, fb) →
       findSub ((workerStep s resp).1).submissions job.submission_id
         = some (completeWith sc fb sub)) ∧
    (∀ n : Int, (completeWith (Json.num 0) busyMsg sub).score = some (Json.num n) →
       0 ≤ n ∧ n ≤ 100) ∧
    (∀ (fb : Json) (n m : Int), 0 ≤ n → n ≤ 100 →
       (completeWith (Json.num n) fb sub).score = some (Json.num m) →
       0 ≤ m ∧ m ≤ 100) := by
  have hid : sub.id = job.submission_id := findSub_some_id _ _ _ hfound
  refine ⟨?_, ?_, ?_, ?_⟩
  · intro hfail
    unfold workerStep
    rw [hq]
    rcases ht : taskDone s.unfinished with _ | u1 <;>
      simp only [hfound, hfail, ht] <;>
      rw [findSub_updateSub s.submissions job.submission_id
            (completeWith (Json.num 0) busyMsg) (fun x => rfl) job.submission_id, hfound] <;>
      simp [hid]
  · intro sc fb hok
    unfold workerStep
    rw [hq]
    rcases ht : taskDone s.unfinished with _ | u1 <;>
      simp only [hfound, hok, ht] <;>
      rw [findSub_updateSub s.submissions job.submission_id
            (completeWith sc fb) (fun x => rfl) job.submission_id, hfound] <;>
      simp [hid]
  · intro n hn
    have : Json.num 0 = Json.num n := Option.some.inj (by simpa [completeWith] using hn)
    have hn0 : (0 : Int) = n := by
      cases this
      rfl
    constructor <;> omega
  · intro fb n m h0 h100 hm
    have : Json.num n = Json.num m := Option.some.inj (by simpa [completeWith] using hm)
    have hnm : n = m := by
      cases this
      rfl
    constructor <;> omega

/-- Witness for C2 (amended): the failure path at the concrete state
persists score 0, and 0 lies in 0..100. -/
theorem C2_witness :
    findSub ((workerStep wState none).1).submissions 0
      = some (completeWith (Json.num 0) busyMsg wSub) ∧ ((0 : Int) ≤ 0 ∧ (0 : Int) ≤ 100) := by
  have h := C2_amended_score_range wState wJob [] none wSub rfl rfl
  exact ⟨h.1 rfl, h.2.2.1 0 rfl⟩

/-! ## C8: the views pick the most recent submission per key -/

theorem mem_insertDesc (x y : Submission) (l : List Submission) :
    y ∈ insertDesc x l ↔ y = x ∨ y ∈ l := by
  induction l with
  | nil => simp [insertDesc]
  | cons a l ih =>
    rw [insertDesc]
    by_cases hc : a.created_at ≤ x.created_at
    · simp [hc]
    · simp only [hc, if_false, List.mem_cons, ih]
      tauto

theorem mem_subSortDesc (y : Submission) (l : List Submission) :
    y ∈ subSortDesc l ↔ y ∈ l := by
  induction l with
  | nil => simp [subSortDesc]
  | cons a l ih =>
    rw [subSortDesc, mem_insertDesc]
    simp [ih]

theorem pairwise_insertDesc (x : Submission) (l : List Submission)
    (h : List.Pairwise (fun a b => b.created_at ≤ a.created_at) l) :
    List.Pairwise (fun a b => b.created_at ≤ a.created_at) (insertDesc x l) := by
  induction l with
  | nil => simp [insertDesc]
  | cons a l ih =>
    obtain ⟨ha, hl⟩ := List.pairwise_cons.mp h
    rw [insertDesc]
    by_cases hc : a.created_at ≤ x.created_at
    · simp only [hc, if_true]
      rw [List.pairwise_cons]
      refine ⟨?_, h⟩
      intro b hb
      rcases List.mem_cons.mp hb with hb | hb
      · rw [hb]
        exact hc
      · exact le_trans (ha b hb) hc
    · simp only [hc, if_false]
      rw [List.pairwise_cons]
      refine ⟨?_, ih hl⟩
      intro b hb
      rcases (mem_insertDesc x b l).mp hb with hb | hb
      · rw [hb]
        exact le_of_lt (lt_of_not_le hc)
      · exact ha b hb

theorem pairwise_subSortDesc (l : List Submission) :
    List.Pairwise (fun a b => b.created_at ≤ a.created_at) (subSortDesc l) := by
  induction l with
  | nil => simp [subSortDesc]
  | cons a l ih => exact pairwise_insertDesc a (subSortDesc l) ih

/-- The first match in a list sorted by descending `created_at` has the
greatest `created_at` among all matches. -/
theorem find?_sorted_max (p : Submission → Bool) :
    ∀ (l : List Submission) (x : Submission),
      List.Pairwise (fun a b => b.created_at ≤ a.created_at) l →
      l.find? p = some x →
      ∀ y ∈ l, p y = true → y.created_at ≤ x.created_at := by
  intro l
  induction l with
  | nil =>
    intro x h1 h2
    simp at h2
  | cons a l ih =>
    intro x hsort hfind y hy hpy
    obtain ⟨ha, hl⟩ := List.pairwise_cons.mp hsort
    by_cases hpa : p a = true
    · rw [List.find?_cons_of_pos _ hpa] at hfind
      rw [← Option.some.inj hfind]
      rcases List.mem_cons.mp hy with hy | hy
      · rw [hy]
      · exact ha y hy
    · rw [List.find?_cons_of_neg _ hpa] at hfind
      rcases List.mem_cons.mp hy with hy | hy
      · rw [hy] at hpy
        exact absurd hpy hpa
      · exact ih x hl hfind y hy hpy

/-- Lookup in the first-wins dict equals the first list match on the
key. -/
theorem mapFind_firstBy {κ : Type} [DecidableEq κ] (key : Submission → κ)
    (l : List Submission) (k : κ) :
    mapFind (firstBy key l) k = l.find? (fun s => key s = k) := by
  have hgo : ∀ (l : List Submission) (acc : List (κ × Submission)),
      mapFind (List.foldl (fun m sub =>
          if (m.find? (fun e => e.1 = key sub)).isSome then m
          else m ++ [(key sub, sub)]) acc l) k
        = (mapFind acc k).or (l.find? (fun s => key s = k)) := by
    intro l
    induction l with
    | nil =>
      intro acc
      rcases h : mapFind acc k with _ | v <;> simp [h]
    | cons a l ih =>
      intro acc
      rw [List.foldl_cons, ih]
      by_cases hpres : ((acc.find? (fun e => e.1 = key a)).isSome : Prop)
      · rw [if_pos hpres]
        rcases h3 : mapFind acc k with _ | v
        · have hk : ¬ (key a = k) := by
            intro he
            subst he
            simp only [mapFind] at h3
            rcases h2 : acc.find? (fun e => e.1 = key a) with _ | e
            · rw [h2] at hpres
              simp at hpres
            · rw [h2] at h3
              simp at h3
          rw [List.find?_cons_of_neg _ (by simp [hk])]
        · simp [h3]
      · rw [if_neg hpres]
        have hmf : mapFind (acc ++ [(key a, a)]) k
            = (mapFind acc k).or (if key a = k then some a else none) := by
          rw [mapFind, List.find?_append, mapFind]
          rcases h2 : acc.find? (fun e => e.1 = k) with _ | e
          · by_cases hk : key a = k
            · rw [h2, List.find?_cons_of_pos _ (by simp [hk])]
              simp [hk]
            · rw [h2, List.find?_cons_of_neg _ (by simp [hk])]
              simp [hk]
          · rw [h2]
            simp
        rw [hmf]
        by_cases hk : key a = k
        · rw [List.find?_cons_of_pos _ (by simp [hk]), if_pos hk]
          rcases h3 : mapFind acc k with _ | v <;> simp [h3]
        · rw [List.find?_cons_of_neg _ (by simp [hk]), if_neg hk]
          rcases h3 : mapFind acc k with _ | v <;> simp [h3]
  rw [firstBy, hgo]
  rfl

/-- Generic characterization: looking up key `k` in a first-wins map
built over the rows sorted by `created_at` descending yields exactly the
newest matching row (given that matching timestamps are distinct). -/
theorem mapFind_view_latest (fltr : Submission → Bool) {κ : Type} [DecidableEq κ]
    (key : Submission → κ) (rows : List Submission) (k : κ) (sub : Submission)
    (hinj : ∀ a ∈ rows, ∀ b ∈ rows, fltr a = true → fltr b = true → key a = k →
       key b = k → a.created_at = b.created_at → a = b) :
    mapFind (firstBy key (subSortDesc (rows.filter fltr))) k = some sub ↔
      (sub ∈ rows ∧ fltr sub = true ∧ key sub = k ∧
       ∀ y ∈ rows, fltr y = true → key y = k → y.created_at ≤ sub.created_at) := by
  rw [mapFind_firstBy]
  constructor
  · intro hfind
    have hmem : sub ∈ subSortDesc (rows.filter fltr) := List.mem_of_find?_eq_some hfind
    have hmem2 : sub ∈ rows.filter fltr := (mem_subSortDesc _ _).mp hmem
    have hmem3 := List.mem_filter.mp hmem2
    have hkey : key sub = k := by
      have h5 := List.find?_some hfind
      exact of_decide_eq_true h5
    refine ⟨hmem3.1, hmem3.2, hkey, ?_⟩
    intro y hy hfy hky
    have hymem : y ∈ subSortDesc (rows.filter fltr) :=
      (mem_subSortDesc _ _).mpr (List.mem_filter.mpr ⟨hy, hfy⟩)
    exact find?_sorted_max _ _ _ (pairwise_subSortDesc _) hfind y hymem
      (decide_eq_true hky)
  · rintro ⟨hmem, hfsub, hkey, hmax⟩
    have hsmem : sub ∈ subSortDesc (rows.filter fltr) :=
      (mem_subSortDesc _ _).mpr (List.mem_filter.mpr ⟨hmem, hfsub⟩)
    have hsome : ((subSortDesc (rows.filter fltr)).find?
        (fun s => key s = k)).isSome := by
      rw [List.find?_isSome]
      exact ⟨sub, hsmem, decide_eq_true hkey⟩
    rcases hx : (subSortDesc (rows.filter fltr)).find? (fun s => key s = k) with _ | x
    · rw [hx] at hsome
      simp at hsome
    · have hxmem : x ∈ subSortDesc (rows.filter fltr) := List.mem_of_find?_eq_some hx
      have hxmem2 := List.mem_filter.mp ((mem_subSortDesc _ _).mp hxmem)
      have hxkey : key x = k := by
        have h5 := List.find?_some hx
        exact of_decide_eq_true h5
      have hle1 : sub.created_at ≤ x.created_at :=
        find?_sorted_max _ _ _ (pairwise_subSortDesc _) hx sub hsmem
          (decide_eq_true hkey)
      have hle2 : x.created_at ≤ sub.created_at := hmax x hxmem2.1 hxmem2.2 hxkey
      have heq : x = sub :=
        hinj x hxmem2.1 sub hmem hxmem2.2 hfsub hxkey hkey (le_antisymm hle2 hle1)
      rw [heq]

/-- C8: for a student and a problem of the active chapter, both the
problem-listing view (`get_problems`) and the reporting view
(`get_status`) return exactly the newest submission for that
(student, problem) pair, assuming matching rows have distinct creation
times (`ORDER BY` leaves equal-timestamp order unspecified). -/
theorem C8_views_select_latest
    (rows : List Submission) (sid pid : Nat) (p_ids s_ids : List Nat)
    (hp : pid ∈ p_ids) (hs : sid ∈ s_ids)
    (hinj : ∀ a ∈ rows, ∀ b ∈ rows, a.student_id = sid → b.student_id = sid →
       a.problem_id = pid → b.problem_id = pid → a.created_at = b.created_at → a = b)
    (sub : Submission) :
    (mapFind (problemsSubMap rows sid p_ids) pid = some sub ↔
       (sub ∈ rows ∧ sub.student_id = sid ∧ sub.problem_id = pid ∧
        ∀ y ∈ rows, y.student_id = sid → y.problem_id = pid →
          y.created_at ≤ sub.created_at)) ∧
    (mapFind (statusSubMap rows s_ids p_ids) (sid, pid) = some sub ↔
       (sub ∈ rows ∧ sub.student_id = sid ∧ sub.problem_id = pid ∧
        ∀ y ∈ rows, y.student_id = sid → y.problem_id = pid →
          y.created_at ≤ sub.created_at)) := by
  constructor
  · rw [problemsSubMap, problemsQuery,
        mapFind_view_latest _ _ _ _ _ (fun a ha b hb hfa hfb hka hkb hc => by
          refine hinj a ha b hb ?_ ?_ hka hkb hc
          · exact of_decide_eq_true ((Bool.and_eq_true .. ).mp hfa).1
          · exact of_decide_eq_true ((Bool.and_eq_true .. ).mp hfb).1)]
    constructor
    · rintro ⟨h1, h2, h3, h4⟩
      refine ⟨h1, of_decide_eq_true ((Bool.and_eq_true .. ).mp h2).1, h3, ?_⟩
      intro y hy hys hyp
      refine h4 y hy ?_ hyp
      rw [Bool.and_eq_true]
      refine ⟨decide_eq_true hys, ?_⟩
      rw [← hyp] at hp
      exact List.elem_iff.mpr hp
    · rintro ⟨h1, h2, h3, h4⟩
      refine ⟨h1, ?_, h3, ?_⟩
      · rw [Bool.and_eq_true]
        refine ⟨decide_eq_true h2, ?_⟩
        rw [← h3] at hp
        exact List.elem_iff.mpr hp
      · intro y hy hfy hky
        exact h4 y hy (of_decide_eq_true ((Bool.and_eq_true .. ).mp hfy).1) hky
  · rw [statusSubMap, statusQuery,
        mapFind_view_latest _ _ _ _ _ (fun a ha b hb hfa hfb hka hkb hc => by
          refine hinj a ha b hb ?_ ?_ ?_ ?_ hc
          · exact congrArg Prod.fst hka
          · exact congrArg Prod.fst hkb
          · exact congrArg Prod.snd hka
          · exact congrArg Prod.snd hkb)]
    constructor
    · rintro ⟨h1, h2, h3, h4⟩
      refine ⟨h1, congrArg Prod.fst h3, congrArg Prod.snd h3, ?_⟩
      intro y hy hys hyp
      refine h4 y hy ?_ ?_
      · rw [Bool.and_eq_true]
        constructor
        · rw [hys]
          exact List.elem_iff.mpr hs
        · rw [← hyp] at hp
          exact List.elem_iff.mpr hp
      · rw [hys, hyp]
    · rintro ⟨h1, h2, h3, h4⟩
      refine ⟨h1, ?_, ?_, ?_⟩
      · rw [Bool.and_eq_true]
        constructor
        · rw [h2]
          exact List.elem_iff.mpr hs
        · rw [← h3] at hp
          exact List.elem_iff.mpr hp
      · rw [h2, h3]
      · intro y hy hfy hky
        exact h4 y hy (congrArg Prod.fst hky) (congrArg Prod.snd hky)

/-- Two completed submissions of the same student for the same problem;
the second was created later. -/
def wSubA : Submission :=
  { id := 10, student_id := 1, problem_id := 2, code_answer := "a".toList,
    ai_feedback := none, score := some (Json.num 50), status := "completed",
    created_at := 0 }

def wSubB : Submission :=
  { id := 11, student_id := 1, problem_id := 2, code_answer := "b".toList,
    ai_feedback := none, score := some (Json.num 80), status := "completed",
    created_at := 1 }

def wRows : List Submission := [wSubA, wSubB]

/-- Witness for C8: with two submissions for the same (student, problem)
where the second is newer, both views return the second one. -/
theorem C8_witness :
    mapFind (problemsSubMap wRows 1 [2]) 2 = some wSubB ∧
    mapFind (statusSubMap wRows [1] [2]) (1, 2) = some wSubB := by
  have hinj : ∀ a ∈ wRows, ∀ b ∈ wRows, a.student_id = 1 → b.student_id = 1 →
      a.problem_id = 2 → b.problem_id = 2 → a.created_at = b.created_at → a = b := by
    intro a ha b hb h1 h2 h3 h4 hc
    rcases List.mem_cons.mp ha with rfl | ha
    · rcases List.mem_cons.mp hb with rfl | hb
      · rfl
      · rw [List.mem_singleton.mp hb] at hc
        exact absurd hc (by decide)
    · rw [List.mem_singleton.mp ha] at hc ⊢
      rcases List.mem_cons.mp hb with rfl | hb
      · exact absurd hc (by decide)
      · rw [List.mem_singleton.mp hb]
  have hmax : ∀ y ∈ wRows, y.student_id = 1 → y.problem_id = 2 →
      y.created_at ≤ wSubB.created_at := by
    intro y hy h1 h2
    rcases List.mem_cons.mp hy with rfl | hy
    · decide
    · rw [List.mem_singleton.mp hy]
  have hmem : wSubB ∈ wRows := List.Mem.tail _ (List.Mem.head _)
  have h := C8_views_select_latest wRows 1 2 [2] [1] (List.Mem.head _) (List.Mem.head _)
    hinj wSubB
  exact ⟨h.1.mpr ⟨hmem, rfl, rfl, hmax⟩, h.2.mpr ⟨hmem, rfl, rfl, hmax⟩⟩

/-! ## C5: code-fence wrapping and parsing -/

/-- A response wrapped in code-fence markers, as the claim describes:
"```json", newline, the text, newline, "```". -/
def wrapFence (t : List Char) : List Char :=
  fence7 ++ ('\n' :: (t ++ ('\n' :: fence3)))

/-- A JSON response whose feedback string itself contains fence
characters. -/
def fenceTrapText : List Char :=
  "\x7b\"score\": 1, \"feedback\": \"```\"\x7d".toList

/-- C5 counterexample: for the JSON text whose feedback string contains
"```", the fence-stripping `replace` deletes the backticks inside the
string value, so wrapping the text in fence markers changes the parsed
result (feedback "```" becomes "").  The claim's universal statement is
false. -/
theorem C5_counterexample :
    gradeParsed fenceTrapText = some (Json.num 1, Json.str "```".toList) ∧
    gradeParsed (wrapFence fenceTrapText) = some (Json.num 1, Json.str []) ∧
    gradeParsed (wrapFence fenceTrapText) ≠ gradeParsed fenceTrapText := by
  refine ⟨rfl, rfl, ?_⟩
  intro h
  rw [show gradeParsed fenceTrapText = some (Json.num 1, Json.str "```".toList) from rfl,
      show gradeParsed (wrapFence fenceTrapText) = some (Json.num 1, Json.str []) from rfl]
    at h
  injection h with h1
  injection h1 with h2 h3
  injection h3 with h4
  exact absurd h4 (by decide)

/-! ### Substring machinery for the fence-strip analysis -/

theorem isPrefixOf_length_le (p l : List Char) (h : p.isPrefixOf l = true) :
    p.length ≤ l.length := by
  induction p generalizing l with
  | nil => simp
  | cons a p ih =>
    cases l with
    | nil => simp [List.isPrefixOf] at h
    | cons b l =>
      simp only [List.isPrefixOf, Bool.and_eq_true] at h
      simpa using ih l h.2

theorem isPrefixOf_append_self (p x : List Char) : p.isPrefixOf (p ++ x) = true := by
  induction p with
  | nil => simp [List.isPrefixOf]
  | cons a p ih => simp [List.isPrefixOf, ih]

theorem isPrefixOf_ext (p l x : List Char) (h : p.isPrefixOf l = true) :
    p.isPrefixOf (l ++ x) = true := by
  induction p generalizing l with
  | nil => simp [List.isPrefixOf]
  | cons a p ih =>
    cases l with
    | nil => simp [List.isPrefixOf] at h
    | cons b l =>
      simp only [List.isPrefixOf, Bool.and_eq_true] at h
      simpa [List.isPrefixOf, h.1] using ih l h.2

theorem isPrefixOf_append_left (p l x : List Char) (hlen : p.length ≤ l.length) :
    p.isPrefixOf (l ++ x) = p.isPrefixOf l := by
  induction p generalizing l with
  | nil => simp [List.isPrefixOf]
  | cons a p ih =>
    cases l with
    | nil => simp at hlen
    | cons b l =>
      simp only [List.length_cons, Nat.succ_le_succ_iff] at hlen
      simp only [List.cons_append, List.isPrefixOf, List.append_eq]
      rw [ih l hlen]

theorem eq_of_isPrefixOf_length (p l : List Char) (h : p.isPrefixOf l = true)
    (hlen : p.length = l.length) : p = l := by
  induction p generalizing l with
  | nil =>
    cases l with
    | nil => rfl
    | cons b l => simp at hlen
  | cons a p ih =>
    cases l with
    | nil => simp [List.isPrefixOf] at h
    | cons b l =>
      simp only [List.isPrefixOf, Bool.and_eq_true, beq_iff_eq] at h
      simp only [List.length_cons, Nat.succ.injEq] at hlen
      rw [h.1, ih l h.2 hlen]

theorem append_isPrefixOf (p q l : List Char) (h : (p ++ q).isPrefixOf l = true) :
    p.isPrefixOf l = true := by
  induction p generalizing l with
  | nil => simp [List.isPrefixOf]
  | cons a p ih =>
    cases l with
    | nil => simp [List.isPrefixOf] at h
    | cons b l =>
      simp only [List.cons_append, List.isPrefixOf, Bool.and_eq_true] at h ⊢
      exact ⟨h.1, ih l h.2⟩

theorem containsSub_cons (pat : List Char) (c : Char) (l : List Char) :
    containsSub pat (c :: l) = (pat.isPrefixOf (c :: l) || containsSub pat l) := rfl

theorem containsSub_of_isPrefixOf (pat l : List Char) (h : pat.isPrefixOf l = true) :
    containsSub pat l = true := by
  cases l with
  | nil =>
    rw [containsSub, h]
  | cons c r =>
    rw [containsSub_cons, h]
    rfl

theorem containsSub_of_right (pat m b : List Char) (h : containsSub pat m = true) :
    containsSub pat (m ++ b) = true := by
  induction m with
  | nil =>
    rw [containsSub] at h
    exact containsSub_of_isPrefixOf _ _ (isPrefixOf_ext _ _ _ h)
  | cons c m ih =>
    rw [containsSub_cons] at h
    rw [List.cons_append, containsSub_cons]
    rcases Bool.or_eq_true_iff.mp h with h | h
    · rw [← List.cons_append, isPrefixOf_ext _ _ _ h]
      rfl
    · rw [ih h, Bool.or_true]

theorem containsSub_of_left (pat a m : List Char) (h : containsSub pat m = true) :
    containsSub pat (a ++ m) = true := by
  induction a with
  | nil => exact h
  | cons c a ih =>
    rw [List.cons_append, containsSub_cons, ih, Bool.or_true]

theorem containsSub_infix (pat a m b : List Char)
    (h : containsSub pat (a ++ (m ++ b)) = false) : containsSub pat m = false := by
  by_contra hc
  rw [containsSub_of_left _ _ _ (containsSub_of_right _ _ _
    (Bool.of_not_eq_false hc))] at h
  exact absurd h (by simp)

/-! ### No fence occurrences in the wrapped text -/

theorem containsSub_or_false (pat : List Char) (c : Char) (l : List Char)
    (h : containsSub pat (c :: l) = false) :
    pat.isPrefixOf (c :: l) = false ∧ containsSub pat l = false := by
  rw [containsSub_cons, Bool.or_eq_false_iff] at h
  exact h

theorem fence3_not_prefixOf_newline (t : List Char) :
    fence3.isPrefixOf ('\n' :: t) = false := by
  simp [fence3, List.isPrefixOf]

theorem containsSub_fence3_newline_cons (t : List Char)
    (h : containsSub fence3 t = false) :
    containsSub fence3 ('\n' :: t) = false := by
  rw [containsSub_cons, fence3_not_prefixOf_newline, Bool.false_or]
  exact h

theorem containsSub_fence3_snoc (t : List Char) (h : containsSub fence3 t = false) :
    containsSub fence3 (t ++ ['\n']) = false := by
  induction t with
  | nil => decide
  | cons d t ih =>
    obtain ⟨h1, h2⟩ := containsSub_or_false _ _ _ h
    rw [List.cons_append, containsSub_cons, Bool.or_eq_false_iff]
    refine ⟨?_, ih h2⟩
    by_cases hlen : fence3.length ≤ (d :: t).length
    · rw [← List.cons_append, isPrefixOf_append_left _ _ _ hlen]
      exact h1
    · cases t with
      | nil =>
        apply Bool.eq_false_iff.mpr
        intro htrue
        have := isPrefixOf_length_le _ _ htrue
        simp [fence3] at this
      | cons e t2 =>
        cases t2 with
        | nil =>
          apply Bool.eq_false_iff.mpr
          intro htrue
          have heq := eq_of_isPrefixOf_length _ _ htrue (by simp [fence3])
          have h3 := congrArg (List.drop 2) heq
          simp [fence3] at h3
        | cons g t3 =>
          refine absurd ?_ hlen
          simp only [fence3, List.length_cons, List.length_nil]
          omega

theorem fence7_decomp : fence7 = fence3 ++ ('j' :: 's' :: 'o' :: 'n' :: []) := rfl

theorem containsSub_fence7_append (u : List Char)
    (h : containsSub fence3 u = false) :
    containsSub fence7 (u ++ fence3) = false := by
  induction u with
  | nil => decide
  | cons c u ih =>
    obtain ⟨h1, h2⟩ := containsSub_or_false _ _ _ h
    rw [List.cons_append, containsSub_cons, Bool.or_eq_false_iff]
    refine ⟨?_, ih h2⟩
    apply Bool.eq_false_iff.mpr
    intro htrue
    have htrue3 : fence3.isPrefixOf (c :: u ++ fence3) = true := by
      rw [fence7_decomp] at htrue
      exact append_isPrefixOf _ _ _ htrue
    by_cases hlen : fence3.length ≤ (c :: u).length
    · rw [isPrefixOf_append_left _ _ _ hlen] at htrue3
      rw [htrue3] at h1
      exact absurd h1 (by simp)
    · have hle := isPrefixOf_length_le _ _ htrue
      simp [fence7, fence3] at hle hlen
      omega

/-! ### pyReplace on the wrapped text -/

theorem pyReplaceF_no_occur (pat repl : List Char) :
    ∀ (f : Nat) (l : List Char), containsSub pat l = false →
      pyReplaceF pat repl f l = l := by
  intro f
  induction f with
  | zero => intro l h; rfl
  | succ f ih =>
    intro l h
    cases l with
    | nil => rfl
    | cons c r =>
      obtain ⟨h1, h2⟩ := containsSub_or_false _ _ _ h
      rw [pyReplaceF, if_neg (fun hand => by rw [h1] at hand; exact absurd hand.2 (by simp)),
          ih r h2]

theorem pyReplaceF_strip_end :
    ∀ (l : List Char) (f : Nat), (l ++ fence3).length ≤ f →
      containsSub fence3 l = false →
      pyReplaceF fence3 [] f (l ++ fence3) = l := by
  intro l
  induction l with
  | nil =>
    intro f hf _
    simp [fence3] at hf
    match f, hf with
    | f + 3, _ =>
      show pyReplaceF fence3 [] (f + 3) fence3 = []
      rw [show (fence3 : List Char) = '`' :: '`' :: '`' :: [] from rfl]
      rw [pyReplaceF, if_pos ⟨by simp [fence3], by simp [List.isPrefixOf, fence3]⟩]
      simp [fence3]
      cases f with
      | zero => rfl
      | succ f => rfl
  | cons c l ih =>
    intro f hf h
    obtain ⟨h1, h2⟩ := containsSub_or_false _ _ _ h
    cases f with
    | zero =>
      exfalso
      simp [List.length_cons] at hf
    | succ f =>
      rw [List.cons_append, pyReplaceF]
      by_cases hp : fence3.isPrefixOf (c :: (l ++ fence3)) = true
      · rw [if_pos ⟨by simp [fence3], hp⟩]
        cases l with
        | nil =>
          have hc : c = '`' := by
            simp [fence3, List.isPrefixOf] at hp
            exact hp.symm
          subst hc
          rw [show ((('`' : Char) :: ([] ++ fence3)).drop fence3.length) = ['`'] from rfl,
              pyReplaceF_no_occur _ _ _ _ (by decide)]
          rfl
        | cons d l2 =>
          cases l2 with
          | nil =>
            have hcd : c = '`' ∧ d = '`' := by
              simp [fence3, List.isPrefixOf] at hp
              exact ⟨hp.1.symm, hp.2.symm⟩
            obtain ⟨rfl, rfl⟩ := hcd
            rw [show ((('`' : Char) :: (['`'] ++ fence3)).drop fence3.length)
                  = '`' :: '`' :: [] from rfl,
                pyReplaceF_no_occur _ _ _ _ (by decide)]
            rfl
          | cons e l3 =>
            exfalso
            rw [← List.cons_append,
                isPrefixOf_append_left fence3 (c :: d :: e :: l3) fence3
                  (by simp only [fence3, List.length_cons, List.length_nil]; omega)] at hp
            rw [hp] at h1
            exact absurd h1 (by simp)
      · rw [if_neg (fun hand => hp hand.2)]
        rw [ih f (by simp only [List.length_cons, List.length_append] at hf ⊢; omega) h2]

theorem pyReplaceF_fence7_start (rest : List Char) (f : Nat) :
    pyReplaceF fence7 [] (f + 1) (fence7 ++ rest) = pyReplaceF fence7 [] f rest := by
  rw [show (fence7 ++ rest : List Char)
        = '`' :: (('`' :: '`' :: 'j' :: 's' :: 'o' :: 'n' :: []) ++ rest) from rfl]
  rw [pyReplaceF, if_pos ⟨by simp [fence7],
    by exact isPrefixOf_append_self fence7 rest⟩]
  rw [show ((('`' : Char) :: (('`' :: '`' :: 'j' :: 's' :: 'o' :: 'n' :: []) ++ rest)).drop
        fence7.length) = rest from List.drop_left fence7 rest]
  rfl

/-! ### Stripping the wrapped text down to the bare response -/

theorem all_takeWhile (p : Char → Bool) (l : List Char) :
    (l.takeWhile p).all p = true := by
  induction l with
  | nil => rfl
  | cons a l ih =>
    rw [List.takeWhile_cons]
    by_cases hp : p a = true
    · simp [hp, ih]
    · simp [hp]

theorem dropWhile_head_neg (p : Char → Bool) (l : List Char) (c : Char)
    (hh : l.head? = some c) (hc : p c = false) : l.dropWhile p = l := by
  cases l with
  | nil => simp at hh
  | cons a r =>
    have : a = c := by
      simp at hh
      exact hh
    rw [List.dropWhile_cons, this, hc]
    simp

/-- `str.strip` splits the text into whitespace, the stripped core, and
whitespace. -/
theorem pyStrip_decomp (t : List Char) :
    ∃ w1 w2, t = w1 ++ (pyStrip t ++ w2) ∧ w1.all isPyWs = true ∧ w2.all isPyWs = true := by
  refine ⟨t.takeWhile isPyWs,
          ((t.dropWhile isPyWs).reverse.takeWhile isPyWs).reverse, ?_, ?_, ?_⟩
  · conv_lhs => rw [← List.takeWhile_append_dropWhile isPyWs t]
    rw [pyStrip]
    congr 1
    conv_lhs => rw [← List.reverse_reverse (t.dropWhile isPyWs),
      ← List.takeWhile_append_dropWhile isPyWs (t.dropWhile isPyWs).reverse]
    rw [List.reverse_append]
  · exact all_takeWhile _ _
  · rw [List.all_reverse]
    exact all_takeWhile _ _

theorem getLast?_wrapFence (t : List Char) : (wrapFence t).getLast? = some '`' := by
  rw [wrapFence, List.getLast?_append_of_ne_nil _ (by simp)]
  rw [show ('\n' :: (t ++ ('\n' :: fence3))) = ['\n'] ++ (t ++ ('\n' :: fence3)) from rfl,
      List.getLast?_append_of_ne_nil _ (by simp),
      List.getLast?_append_of_ne_nil _ (by simp)]
  decide

theorem pyStrip_wrapFence (t : List Char) : pyStrip (wrapFence t) = wrapFence t := by
  rw [pyStrip]
  rw [dropWhile_head_neg isPyWs (wrapFence t) '`' (by rw [wrapFence, fence7]; rfl)
        (by decide)]
  rw [dropWhile_head_neg isPyWs (wrapFence t).reverse '`'
        (by rw [List.head?_reverse]; exact getLast?_wrapFence t) (by decide)]
  exact List.reverse_reverse _

theorem fence3_isPrefixOf_wrapFence (t : List Char) :
    fence3.isPrefixOf (wrapFence t) = true := by
  rw [wrapFence, fence7_decomp, List.append_assoc]
  exact isPrefixOf_append_self fence3 _

/-- Stripping the fences off the wrapped text leaves the original text
surrounded by the two newlines, provided the text itself has no "```". -/
theorem stripFences_wrapFence (t : List Char) (h : containsSub fence3 t = false) :
    stripFences (wrapFence t) = '\n' :: (t ++ ['\n']) := by
  have hu : containsSub fence3 ('\n' :: (t ++ ['\n'])) = false :=
    containsSub_fence3_newline_cons _ (containsSub_fence3_snoc _ h)
  have hshape : wrapFence t = fence7 ++ (('\n' :: (t ++ ['\n'])) ++ fence3) := by
    rw [wrapFence]
    congr 1
    rw [List.cons_append, List.append_assoc]
    rfl
  have hinner : pyReplace fence7 [] (wrapFence t) = ('\n' :: (t ++ ['\n'])) ++ fence3 := by
    rw [pyReplace, hshape]
    have hlen : (fence7 ++ (('\n' :: (t ++ ['\n'])) ++ fence3)).length
        = ((('\n' :: (t ++ ['\n'])) ++ fence3).length + 6) + 1 := by
      simp only [fence7, List.length_append, List.length_cons, List.length_nil]
      omega
    rw [hlen, pyReplaceF_fence7_start]
    exact pyReplaceF_no_occur _ _ _ _ (containsSub_fence7_append _ hu)
  have hps := pyStrip_wrapFence t
  have hpre := fence3_isPrefixOf_wrapFence t
  simp only [stripFences, hps, hpre, if_true]
  rw [hinner, pyReplace]
  exact pyReplaceF_strip_end _ _ (le_refl _) hu

/-- With no "```" in the text, the worker's fence-stripping step reduces
to the bare `strip()`. -/
theorem stripFences_no_fence (t : List Char) (h : containsSub fence3 t = false) :
    stripFences t = pyStrip t := by
  obtain ⟨w1, w2, hdec, _, _⟩ := pyStrip_decomp t
  have hps : containsSub fence3 (pyStrip t) = false := by
    rw [hdec] at h
    exact containsSub_infix _ _ _ _ (by rw [← List.append_assoc] at h ⊢; exact h)
  have hpre : fence3.isPrefixOf (pyStrip t) = false := by
    apply Bool.eq_false_iff.mpr
    intro hp
    rw [containsSub_of_isPrefixOf _ _ hp] at hps
    exact absurd hps (by simp)
  simp [stripFences, hpre]

/-! ### Scanning over appended whitespace -/

theorem dropWhile_append_all (p : Char → Bool) (ws l : List Char)
    (h : ws.all p = true) : (ws ++ l).dropWhile p = l.dropWhile p := by
  induction ws with
  | nil => rfl
  | cons a w ih =>
    rw [List.all_cons, Bool.and_eq_true] at h
    rw [List.cons_append, List.dropWhile_cons, if_pos h.1]
    exact ih h.2

theorem dropWhile_append_cons (p : Char → Bool) (l ext : List Char) (c : Char)
    (r : List Char) (h : l.dropWhile p = c :: r) :
    (l ++ ext).dropWhile p = c :: (r ++ ext) := by
  induction l with
  | nil => simp at h
  | cons a l ih =>
    rw [List.dropWhile_cons] at h
    rw [List.cons_append, List.dropWhile_cons]
    by_cases hp : p a = true
    · rw [if_pos hp] at h
      rw [if_pos hp]
      exact ih h
    · rw [if_neg hp] at h
      rw [if_neg hp]
      rw [List.cons.injEq] at h
      rw [h.1, ← h.2]

theorem takeWhile_append_cons (p : Char → Bool) (l ext : List Char) (c : Char)
    (r : List Char) (h : l.dropWhile p = c :: r) :
    (l ++ ext).takeWhile p = l.takeWhile p := by
  induction l with
  | nil => simp at h
  | cons a l ih =>
    rw [List.dropWhile_cons] at h
    rw [List.cons_append, List.takeWhile_cons, List.takeWhile_cons]
    by_cases hp : p a = true
    · rw [if_pos hp] at h
      rw [if_pos hp, if_pos hp, ih h]
    · rw [if_neg hp, if_neg hp]

theorem all_of_dropWhile_nil (p : Char → Bool) (l : List Char)
    (h : l.dropWhile p = []) : l.all p = true := by
  induction l with
  | nil => rfl
  | cons a l ih =>
    rw [List.dropWhile_cons] at h
    by_cases hp : p a = true
    · rw [if_pos hp] at h
      rw [List.all_cons, hp, ih h]
      rfl
    · rw [if_neg hp] at h
      simp at h

theorem takeWhile_all_eq (p : Char → Bool) (l : List Char) (h : l.all p = true) :
    l.takeWhile p = l := by
  induction l with
  | nil => rfl
  | cons a l ih =>
    rw [List.all_cons, Bool.and_eq_true] at h
    rw [List.takeWhile_cons, if_pos h.1, ih h.2]

theorem takeWhile_append_all (p : Char → Bool) (l ext : List Char)
    (h : l.all p = true) : (l ++ ext).takeWhile p = l ++ ext.takeWhile p := by
  induction l with
  | nil => rfl
  | cons a l ih =>
    rw [List.all_cons, Bool.and_eq_true] at h
    rw [List.cons_append, List.takeWhile_cons, if_pos h.1, ih h.2]
    rfl

theorem jsonWs_not_digit (c : Char) (h : isJsonWs c = true) : c.isDigit = false := by
  rw [isJsonWs] at h
  rcases Bool.or_eq_true_iff.mp h with h | h
  · rcases Bool.or_eq_true_iff.mp h with h | h
    · rcases Bool.or_eq_true_iff.mp h with h | h <;>
        rw [of_decide_eq_true h] <;> decide
    · rw [of_decide_eq_true h]
      decide
  · rw [of_decide_eq_true h]
    decide

theorem jsonWs_cases (c : Char) (h : isJsonWs c = true) :
    c = ' ' ∨ c = '\t' ∨ c = '\n' ∨ c = '\r' := by
  rw [isJsonWs] at h
  rcases Bool.or_eq_true_iff.mp h with h | h
  · rcases Bool.or_eq_true_iff.mp h with h | h
    · rcases Bool.or_eq_true_iff.mp h with h | h
      · exact Or.inl (of_decide_eq_true h)
      · exact Or.inr (Or.inl (of_decide_eq_true h))
    · exact Or.inr (Or.inr (Or.inl (of_decide_eq_true h)))
  · exact Or.inr (Or.inr (Or.inr (of_decide_eq_true h)))

theorem takeWhile_digit_ws_nil (ext : List Char) (h : ext.all isJsonWs = true) :
    ext.takeWhile Char.isDigit = [] := by
  cases ext with
  | nil => rfl
  | cons e r =>
    rw [List.all_cons, Bool.and_eq_true] at h
    rw [List.takeWhile_cons, if_neg]
    rw [jsonWs_not_digit e h.1]
    simp

theorem dropWhile_digit_ws (ext : List Char) (h : ext.all isJsonWs = true) :
    ext.dropWhile Char.isDigit = ext := by
  cases ext with
  | nil => rfl
  | cons e r =>
    rw [List.all_cons, Bool.and_eq_true] at h
    rw [List.dropWhile_cons, if_neg]
    rw [jsonWs_not_digit e h.1]
    simp

/-- A pattern of non-whitespace characters that is not a prefix of `l`
is still not a prefix after appending whitespace. -/
theorem isPrefixOf_ws_ext_false (p : List Char) :
    ∀ (l ext : List Char), (∀ x ∈ p, isJsonWs x = false) → ext.all isJsonWs = true →
      p.isPrefixOf l = false → p.isPrefixOf (l ++ ext) = false := by
  induction p with
  | nil =>
    intro l ext hp hext h
    simp [List.isPrefixOf] at h
  | cons a p ih =>
    intro l ext hp hext h
    cases l with
    | nil =>
      cases ext with
      | nil => simp [List.isPrefixOf]
      | cons e r =>
        rw [List.all_cons, Bool.and_eq_true] at hext
        rw [List.nil_append, List.isPrefixOf]
        have hne : (a == e) = false := by
          apply beq_eq_false_iff_ne.mpr
          intro he
          rw [he] at hp
          rw [hp e (List.mem_cons_self _ _)] at hext
          exact absurd hext.1 (by simp)
        rw [hne]
        rfl
    | cons b l2 =>
      rw [List.isPrefixOf] at h
      rw [List.cons_append, List.isPrefixOf]
      by_cases hab : (a == b) = true
      · rw [hab] at h ⊢
        rw [Bool.true_and] at h ⊢
        exact ih l2 ext (fun x hx => hp x (List.mem_cons_of_mem _ hx)) hext h
      · rw [Bool.eq_false_iff.mpr hab]
        rfl

/-! ### String and number tokens over appended input -/

theorem parseStrBody_append :
    ∀ (f f' : Nat) (l ext s r : List Char), f ≤ f' →
      parseStrBody f l = some (s, r) →
      parseStrBody f' (l ++ ext) = some (s, r ++ ext) := by
  intro f
  induction f with
  | zero =>
    intro f' l ext s r hle hs
    simp [parseStrBody] at hs
  | succ f ih =>
    intro f' l ext s r hle hs
    obtain ⟨f2, rfl⟩ : ∃ f2, f' = f2 + 1 := ⟨f' - 1, by omega⟩
    have hle2 : f ≤ f2 := by omega
    cases l with
    | nil =>
      simp [parseStrBody] at hs
    | cons c r0 =>
      simp only [parseStrBody] at hs
      rw [List.cons_append]
      simp only [parseStrBody]
      by_cases h1 : c = '"'
      · rw [if_pos h1] at hs
        rw [if_pos h1]
        obtain ⟨h5, h6⟩ := Prod.mk.injEq .. ▸ Option.some.inj hs
        rw [← h5, ← h6]
      · rw [if_neg h1] at hs
        rw [if_neg h1]
        by_cases h2 : c = '\\'
        · rw [if_pos h2] at hs
          rw [if_pos h2]
          cases r0 with
          | nil => exact absurd hs (by simp)
          | cons e r2 =>
            simp only [List.cons_append]
            simp only [] at hs
            by_cases h3 : e = 'u'
            · rw [if_pos h3] at hs
              rw [if_pos h3]
              rcases r2 with _ | ⟨a, _ | ⟨b, _ | ⟨c2, _ | ⟨d, r3⟩⟩⟩⟩
              · exact absurd hs (by simp)
              · exact absurd hs (by simp)
              · exact absurd hs (by simp)
              · exact absurd hs (by simp)
              · simp only [List.cons_append]
                simp only [] at hs
                by_cases hhex : (isHexC a && isHexC b && isHexC c2 && isHexC d) = true
                · rw [if_pos hhex] at hs
                  rw [if_pos hhex]
                  rcases hrec : parseStrBody f r3 with _ | ⟨s2, rest2⟩
                  · rw [hrec] at hs
                    exact absurd hs (by simp)
                  · rw [hrec] at hs
                    rw [ih f2 r3 ext s2 rest2 hle2 hrec]
                    obtain ⟨h5, h6⟩ := Prod.mk.injEq .. ▸ Option.some.inj hs
                    rw [← h5, ← h6]
                · rw [if_neg hhex] at hs
                  exact absurd hs (by simp)
            · rw [if_neg h3] at hs
              rw [if_neg h3]
              rcases hesc : parseStrBody.escMap e with _ | ec
              · rw [hesc] at hs
                exact absurd hs (by simp)
              · rw [hesc] at hs
                rcases hrec : parseStrBody f r2 with _ | ⟨s2, rest2⟩
                · rw [hrec] at hs
                  exact absurd hs (by simp)
                · rw [hrec] at hs
                  rw [ih f2 r2 ext s2 rest2 hle2 hrec]
                  obtain ⟨h5, h6⟩ := Prod.mk.injEq .. ▸ Option.some.inj hs
                  rw [← h5, ← h6]
        · rw [if_neg h2] at hs
          rw [if_neg h2]
          by_cases h4 : c.toNat < 32
          · rw [if_pos h4] at hs
            exact absurd hs (by simp)
          · rw [if_neg h4] at hs
            rw [if_neg h4]
            rcases hrec : parseStrBody f r0 with _ | ⟨s2, rest2⟩
            · rw [hrec] at hs
              exact absurd hs (by simp)
            · rw [hrec] at hs
              rw [ih f2 r0 ext s2 rest2 hle2 hrec]
              obtain ⟨h5, h6⟩ := Prod.mk.injEq .. ▸ Option.some.inj hs
              rw [← h5, ← h6]

theorem parseNumTok_append (l ext : List Char) (n : Nat) (r : List Char)
    (hext : ext.all isJsonWs = true)
    (hs : parseNumTok l = some (n, r)) :
    parseNumTok (l ++ ext) = some (n, r ++ ext) := by
  simp only [parseNumTok] at hs ⊢
  rcases hdw : l.dropWhile Char.isDigit with _ | ⟨c, rest⟩
  · have hall : l.all Char.isDigit = true := all_of_dropWhile_nil _ _ hdw
    rw [hdw] at hs
    rw [takeWhile_append_all _ _ _ hall, takeWhile_digit_ws_nil ext hext, List.append_nil,
        dropWhile_append_all _ _ _ hall, dropWhile_digit_ws ext hext]
    rw [takeWhile_all_eq _ _ hall] at hs
    by_cases hemp : l.isEmpty = true
    · rw [if_pos hemp] at hs
      exact absurd hs (by simp)
    · rw [if_neg hemp] at hs ⊢
      by_cases hlead : (2 ≤ l.length && l.head? = some '0') = true
      · rw [if_pos hlead] at hs
        exact absurd hs (by simp)
      · rw [if_neg hlead] at hs ⊢
        simp only [List.head?_nil] at hs
        obtain ⟨h5, h6⟩ := Prod.mk.injEq .. ▸ Option.some.inj hs
        split
        · rename_i e hh
          have he : isJsonWs e = true := by
            cases ext with
            | nil => simp at hh
            | cons e0 r0 =>
              rw [List.all_cons, Bool.and_eq_true] at hext
              simp only [List.head?_cons, Option.some.injEq] at hh
              rw [← hh]
              exact hext.1
          rw [if_neg (by rcases jsonWs_cases e he with rfl | rfl | rfl | rfl <;> decide)]
          rw [← h5, ← h6]
          rfl
        · rw [← h5, ← h6]
          rfl
  · rw [hdw] at hs
    rw [takeWhile_append_cons _ _ _ _ _ hdw, dropWhile_append_cons _ _ _ _ _ hdw]
    by_cases hemp : (l.takeWhile Char.isDigit).isEmpty = true
    · rw [if_pos hemp] at hs
      exact absurd hs (by simp)
    · rw [if_neg hemp] at hs ⊢
      by_cases hlead : (2 ≤ (l.takeWhile Char.isDigit).length &&
          (l.takeWhile Char.isDigit).head? = some '0') = true
      · rw [if_pos hlead] at hs
        exact absurd hs (by simp)
      · rw [if_neg hlead] at hs ⊢
        simp only [List.head?_cons] at hs ⊢
        by_cases hdot : (c = '.' || c = 'e' || c = 'E') = true
        · rw [if_pos hdot] at hs
          exact absurd hs (by simp)
        · rw [if_neg hdot] at hs ⊢
          obtain ⟨h5, h6⟩ := Prod.mk.injEq .. ▸ Option.some.inj hs
          rw [← h5, ← h6, List.cons_append]

/-! ### Transfer of parses to whitespace-extended input -/

theorem parseVal_none_of_ws (f : Nat) (l : List Char)
    (h : l.dropWhile isJsonWs = []) : parseVal f l = none := by
  cases f with
  | zero => rfl
  | succ f => simp only [parseVal, h]

theorem parseMembers_none_of_ws (f : Nat) (l : List Char)
    (h : l.dropWhile isJsonWs = []) : parseMembers f l = none := by
  cases f with
  | zero => rfl
  | succ f => simp only [parseMembers, h]

theorem parseItems_none_of_ws (f : Nat) (l : List Char)
    (h : l.dropWhile isJsonWs = []) : parseItems f l = none := by
  cases f with
  | zero => rfl
  | succ f => simp only [parseItems, parseVal_none_of_ws f l h]

/-- Success of the scanner at fuel `f` transfers to any larger fuel and
to the input extended on the right by JSON whitespace, the remainder
absorbing the extension. -/
theorem parse_mono_append : ∀ f : Nat,
    (∀ f2 l ext v r, f ≤ f2 → ext.all isJsonWs = true →
       parseVal f l = some (v, r) → parseVal f2 (l ++ ext) = some (v, r ++ ext)) ∧
    (∀ f2 l ext kvs r, f ≤ f2 → ext.all isJsonWs = true →
       parseMembers f l = some (kvs, r) →
       parseMembers f2 (l ++ ext) = some (kvs, r ++ ext)) ∧
    (∀ f2 l ext xs r, f ≤ f2 → ext.all isJsonWs = true →
       parseItems f l = some (xs, r) → parseItems f2 (l ++ ext) = some (xs, r ++ ext)) := by
  intro f
  induction f with
  | zero =>
    refine ⟨?_, ?_, ?_⟩ <;> intro f2 l ext a r hle hext hs <;>
      simp [parseVal, parseMembers, parseItems] at hs
  | succ f ih =>
    obtain ⟨ihV, ihM, ihI⟩ := ih
    refine ⟨?_, ?_, ?_⟩
    · intro f2 l ext v r hle hext hs
      obtain ⟨g, rfl⟩ : ∃ g, f2 = g + 1 := ⟨f2 - 1, by omega⟩
      have hlef : f ≤ g := by omega
      simp only [parseVal] at hs
      simp only [parseVal]
      rcases hdw : l.dropWhile isJsonWs with _ | ⟨c, r0⟩
      · rw [hdw] at hs
        simp at hs
      · rw [hdw] at hs
        simp only [] at hs
        rw [dropWhile_append_cons _ _ _ _ _ hdw]
        simp only []
        by_cases h1 : c = '{'
        · rw [if_pos h1] at hs
          rw [if_pos h1]
          split at hs
          · rename_i r2 heq
            obtain ⟨h5, h6⟩ := Prod.mk.injEq .. ▸ Option.some.inj hs
            split
            · rename_i r2x heqx
              rw [dropWhile_append_cons _ _ _ _ _ heq] at heqx
              obtain ⟨-, h8⟩ := List.cons.injEq .. ▸ heqx
              rw [← h5, ← h6, ← h8]
            · rename_i hnex
              exact absurd (dropWhile_append_cons _ _ _ _ _ heq) (hnex _)
          · rename_i hne
            rcases hmem : parseMembers f r0 with _ | ⟨kvs, rest⟩
            · rw [hmem] at hs
              simp at hs
            · rw [hmem] at hs
              simp only [] at hs
              obtain ⟨h5, h6⟩ := Prod.mk.injEq .. ▸ Option.some.inj hs
              split
              · rename_i r2x heqx
                rcases hdw2 : r0.dropWhile isJsonWs with _ | ⟨c2, r2y⟩
                · rw [parseMembers_none_of_ws f r0 hdw2] at hmem
                  exact absurd hmem (by simp)
                · rw [dropWhile_append_cons _ _ _ _ _ hdw2] at heqx
                  obtain ⟨h7, -⟩ := List.cons.injEq .. ▸ heqx
                  exact absurd (h7 ▸ hdw2) (hne _)
              · rw [ihM g r0 ext kvs rest hlef hext hmem]
                simp only []
                rw [← h5, ← h6]
        · rw [if_neg h1] at hs
          rw [if_neg h1]
          by_cases h2 : c = '['
          · rw [if_pos h2] at hs
            rw [if_pos h2]
            split at hs
            · rename_i r2 heq
              obtain ⟨h5, h6⟩ := Prod.mk.injEq .. ▸ Option.some.inj hs
              split
              · rename_i r2x heqx
                rw [dropWhile_append_cons _ _ _ _ _ heq] at heqx
                obtain ⟨-, h8⟩ := List.cons.injEq .. ▸ heqx
                rw [← h5, ← h6, ← h8]
              · rename_i hnex
                exact absurd (dropWhile_append_cons _ _ _ _ _ heq) (hnex _)
            · rename_i hne
              rcases hit : parseItems f r0 with _ | ⟨xs, rest⟩
              · rw [hit] at hs
                simp at hs
              · rw [hit] at hs
                simp only [] at hs
                obtain ⟨h5, h6⟩ := Prod.mk.injEq .. ▸ Option.some.inj hs
                split
                · rename_i r2x heqx
                  rcases hdw2 : r0.dropWhile isJsonWs with _ | ⟨c2, r2y⟩
                  · rw [parseItems_none_of_ws f r0 hdw2] at hit
                    exact absurd hit (by simp)
                  · rw [dropWhile_append_cons _ _ _ _ _ hdw2] at heqx
                    obtain ⟨h7, -⟩ := List.cons.injEq .. ▸ heqx
                    exact absurd (h7 ▸ hdw2) (hne _)
                · rw [ihI g r0 ext xs rest hlef hext hit]
                  simp only []
                  rw [← h5, ← h6]
          · rw [if_neg h2] at hs
            rw [if_neg h2]
            by_cases h3 : c = '"'
            · rw [if_pos h3] at hs
              rw [if_pos h3]
              rcases hstr : parseStrBody f r0 with _ | ⟨s2, rest2⟩
              · rw [hstr] at hs
                simp at hs
              · rw [hstr] at hs
                simp only [] at hs
                obtain ⟨h5, h6⟩ := Prod.mk.injEq .. ▸ Option.some.inj hs
                rw [parseStrBody_append f g r0 ext s2 rest2 hlef hstr]
                simp only []
                rw [← h5, ← h6]
            · rw [if_neg h3] at hs
              rw [if_neg h3]
              by_cases h4 : litTrue.isPrefixOf (c :: r0) = true
              · rw [if_pos h4] at hs
                obtain ⟨h5, h6⟩ := Prod.mk.injEq .. ▸ Option.some.inj hs
                have h4x : litTrue.isPrefixOf (c :: (r0 ++ ext)) = true := by
                  rw [← List.cons_append]
                  exact isPrefixOf_ext _ _ _ h4
                rw [if_pos h4x, ← List.cons_append,
                    List.drop_append_of_le_length
                      (by simpa [litTrue] using isPrefixOf_length_le _ _ h4),
                    ← h5, ← h6]
              · rw [if_neg h4] at hs
                have h4x : ¬ litTrue.isPrefixOf (c :: (r0 ++ ext)) = true := by
                  rw [← List.cons_append,
                      isPrefixOf_ws_ext_false _ _ _ (by decide) hext
                        (Bool.eq_false_iff.mpr h4)]
                  simp
                rw [if_neg h4x]
                by_cases h5 : litFalse.isPrefixOf (c :: r0) = true
                · rw [if_pos h5] at hs
                  obtain ⟨h6, h7⟩ := Prod.mk.injEq .. ▸ Option.some.inj hs
                  have h5x : litFalse.isPrefixOf (c :: (r0 ++ ext)) = true := by
                    rw [← List.cons_append]
                    exact isPrefixOf_ext _ _ _ h5
                  rw [if_pos h5x, ← List.cons_append,
                      List.drop_append_of_le_length
                        (by simpa [litFalse] using isPrefixOf_length_le _ _ h5),
                      ← h6, ← h7]
                · rw [if_neg h5] at hs
                  have h5x : ¬ litFalse.isPrefixOf (c :: (r0 ++ ext)) = true := by
                    rw [← List.cons_append,
                        isPrefixOf_ws_ext_false _ _ _ (by decide) hext
                          (Bool.eq_false_iff.mpr h5)]
                    simp
                  rw [if_neg h5x]
                  by_cases h6 : litNull.isPrefixOf (c :: r0) = true
                  · rw [if_pos h6] at hs
                    obtain ⟨h7, h8⟩ := Prod.mk.injEq .. ▸ Option.some.inj hs
                    have h6x : litNull.isPrefixOf (c :: (r0 ++ ext)) = true := by
                      rw [← List.cons_append]
                      exact isPrefixOf_ext _ _ _ h6
                    rw [if_pos h6x, ← List.cons_append,
                        List.drop_append_of_le_length
                          (by simpa [litNull] using isPrefixOf_length_le _ _ h6),
                        ← h7, ← h8]
                  · rw [if_neg h6] at hs
                    have h6x : ¬ litNull.isPrefixOf (c :: (r0 ++ ext)) = true := by
                      rw [← List.cons_append,
                          isPrefixOf_ws_ext_false _ _ _ (by decide) hext
                            (Bool.eq_false_iff.mpr h6)]
                      simp
                    rw [if_neg h6x]
                    by_cases h7 : c = '-'
                    · rw [if_pos h7] at hs
                      rw [if_pos h7]
                      rcases hnum : parseNumTok r0 with _ | ⟨n, rest⟩
                      · rw [hnum] at hs
                        simp at hs
                      · rw [hnum] at hs
                        simp only [] at hs
                        obtain ⟨h8, h9⟩ := Prod.mk.injEq .. ▸ Option.some.inj hs
                        rw [parseNumTok_append r0 ext n rest hext hnum]
                        simp only []
                        rw [← h8, ← h9]
                    · rw [if_neg h7] at hs
                      rw [if_neg h7]
                      rcases hnum : parseNumTok (c :: r0) with _ | ⟨n, rest⟩
                      · rw [hnum] at hs
                        simp at hs
                      · rw [hnum] at hs
                        simp only [] at hs
                        obtain ⟨h8, h9⟩ := Prod.mk.injEq .. ▸ Option.some.inj hs
                        have := parseNumTok_append (c :: r0) ext n rest hext hnum
                        rw [List.cons_append] at this
                        rw [this]
                        simp only []
                        rw [← h8, ← h9]
    · intro f2 l ext kvs r hle hext hs
      obtain ⟨g, rfl⟩ : ∃ g, f2 = g + 1 := ⟨f2 - 1, by omega⟩
      have hlef : f ≤ g := by omega
      simp only [parseMembers] at hs
      simp only [parseMembers]
      split at hs
      · rename_i r0 heq
        split
        · rename_i r0x heqx
          rw [dropWhile_append_cons _ _ _ _ _ heq] at heqx
          obtain ⟨-, h8⟩ := List.cons.injEq .. ▸ heqx
          rw [← h8]
          rcases hstr : parseStrBody f r0 with _ | ⟨k, r2⟩
          · rw [hstr] at hs
            simp at hs
          · rw [hstr] at hs
            simp only [] at hs
            rw [parseStrBody_append f g r0 ext k r2 hlef hstr]
            simp only []
            split at hs
            · rename_i r3 heq3
              rw [dropWhile_append_cons _ _ _ _ _ heq3]
              simp only []
              rcases hval : parseVal f r3 with _ | ⟨v2, r4⟩
              · rw [hval] at hs
                simp at hs
              · rw [hval] at hs
                simp only [] at hs
                rw [ihV g r3 ext v2 r4 hlef hext hval]
                simp only []
                split at hs
                · rename_i r5 heq5
                  rw [dropWhile_append_cons _ _ _ _ _ heq5]
                  simp only []
                  rcases hmem2 : parseMembers f r5 with _ | ⟨kvs2, rest2⟩
                  · rw [hmem2] at hs
                    simp at hs
                  · rw [hmem2] at hs
                    simp only [] at hs
                    obtain ⟨h5, h6⟩ := Prod.mk.injEq .. ▸ Option.some.inj hs
                    rw [ihM g r5 ext kvs2 rest2 hlef hext hmem2]
                    simp only []
                    rw [← h5, ← h6]
                · rename_i r5 heq5
                  rw [dropWhile_append_cons _ _ _ _ _ heq5]
                  simp only []
                  obtain ⟨h5, h6⟩ := Prod.mk.injEq .. ▸ Option.some.inj hs
                  rw [← h5, ← h6]
                · rename_i hne5
                  exact absurd hs (by simp)
            · rename_i hne3
              exact absurd hs (by simp)
        · rename_i hnex
          exact absurd (dropWhile_append_cons _ _ _ _ _ heq) (hnex _)
      · rename_i hne
        exact absurd hs (by simp)
    · intro f2 l ext xs r hle hext hs
      obtain ⟨g, rfl⟩ : ∃ g, f2 = g + 1 := ⟨f2 - 1, by omega⟩
      have hlef : f ≤ g := by omega
      simp only [parseItems] at hs
      simp only [parseItems]
      rcases hval : parseVal f l with _ | ⟨v2, r2⟩
      · rw [hval] at hs
        simp at hs
      · rw [hval] at hs
        simp only [] at hs
        rw [ihV g l ext v2 r2 hlef hext hval]
        simp only []
        split at hs
        · rename_i r3 heq3
          rw [dropWhile_append_cons _ _ _ _ _ heq3]
          simp only []
          rcases hit : parseItems f r3 with _ | ⟨xs2, rest2⟩
          · rw [hit] at hs
            simp at hs
          · rw [hit] at hs
            simp only [] at hs
            obtain ⟨h5, h6⟩ := Prod.mk.injEq .. ▸ Option.some.inj hs
            rw [ihI g r3 ext xs2 rest2 hlef hext hit]
            simp only []
            rw [← h5, ← h6]
        · rename_i r3 heq3
          rw [dropWhile_append_cons _ _ _ _ _ heq3]
          simp only []
          obtain ⟨h5, h6⟩ := Prod.mk.injEq .. ▸ Option.some.inj hs
          rw [← h5, ← h6]
        · rename_i hne3
          exact absurd hs (by simp)

theorem parseVal_ws_prepend (f : Nat) (ws l : List Char)
    (h : ws.all isJsonWs = true) : parseVal f (ws ++ l) = parseVal f l := by
  cases f with
  | zero => rfl
  | succ f => simp only [parseVal, dropWhile_append_all _ _ _ h]

/-- C5 (amended): wrapping a response text in code-fence markers
(case "```json\n" before and "\n```" after) and passing it through the
worker's fence-stripping-then-parse step yields the same parsed
(score, feedback) result as parsing the text directly, PROVIDED the
text contains no "```" of its own and none of the vertical-tab or
form-feed characters that `str.strip()` removes but `json.loads`
rejects, and the bare text parses successfully.  Without the first
proviso the claim is false (`C5_counterexample`): the strip step
deletes every "```" occurrence, including ones inside JSON strings. -/
theorem C5_amended (t : List Char) (p : Json × Json)
    (h1 : containsSub fence3 t = false)
    (h2 : ∀ c ∈ t, isPyWs c = true → isJsonWs c = true)
    (h3 : gradeParsed t = some p) :
    gradeParsed (wrapFence t) = some p := by
  obtain ⟨w1, w2, hdec, hw1, hw2⟩ := pyStrip_decomp t
  have hw1' : w1.all isJsonWs = true := by
    rw [List.all_eq_true] at hw1 ⊢
    intro c hc
    exact h2 c (by rw [hdec]; exact List.mem_append_left _ hc) (hw1 c hc)
  have hw2' : w2.all isJsonWs = true := by
    rw [List.all_eq_true] at hw2 ⊢
    intro c hc
    exact h2 c (by rw [hdec]; exact List.mem_append_right _ (List.mem_append_right _ hc))
      (hw2 c hc)
  have hws1 : ('\n' :: w1).all isJsonWs = true := by
    rw [List.all_cons, hw1']
    rfl
  have hext : (w2 ++ ['\n']).all isJsonWs = true := by
    rw [List.all_append, hw2']
    rfl
  simp only [gradeParsed] at h3
  rw [stripFences_no_fence t h1] at h3
  rcases hjl : json_loads (pyStrip t) with _ | v
  · rw [hjl] at h3
    exact absurd h3 (by simp)
  rw [hjl] at h3
  simp only [] at h3
  simp only [json_loads] at hjl
  rcases hpv : parseVal (2 * (pyStrip t).length + 2) (pyStrip t) with _ | ⟨v2, rest⟩
  · rw [hpv] at hjl
    exact absurd hjl (by simp)
  rw [hpv] at hjl
  simp only [] at hjl
  by_cases hrest : rest.all isJsonWs = true
  · rw [if_pos hrest] at hjl
    have hv : v2 = v := Option.some.inj hjl
    subst hv
    have hshape : '\n' :: (t ++ ['\n'])
        = ('\n' :: w1) ++ ((pyStrip t) ++ (w2 ++ ['\n'])) := by
      rw [List.cons_append]
      congr 1
      conv_lhs => rw [hdec]
      simp [List.append_assoc]
    have hle : 2 * (pyStrip t).length + 2
        ≤ 2 * (('\n' :: w1) ++ ((pyStrip t) ++ (w2 ++ ['\n']))).length + 2 := by
      simp only [List.length_append, List.length_cons]
      omega
    have hkey : json_loads (('\n' :: w1) ++ ((pyStrip t) ++ (w2 ++ ['\n']))) = some v2 := by
      simp only [json_loads]
      rw [parseVal_ws_prepend _ _ _ hws1,
          (parse_mono_append (2 * (pyStrip t).length + 2)).1 _ _ _ v2 rest hle hext hpv]
      simp only []
      rw [List.all_append, hrest, hext]
      rfl
    simp only [gradeParsed]
    rw [stripFences_wrapFence t h1, hshape, hkey]
    simp only []
    exact h3
  · rw [if_neg hrest] at hjl
    exact absurd hjl (by simp)

theorem C5_witness :
    gradeParsed (wrapFence objRespText) = some (Json.num 90, Json.str "good".toList) :=
  C5_amended objRespText (Json.num 90, Json.str "good".toList)
    (by decide) (by decide) rfl
